import Mathlib

/-!
Verification of the hybrid on-chain/off-chain coordinator contracts of this
repository (`BasicHybridCoordinator.sol` in its three variants, the
`FIFOBytes32` ring-buffer queue library, and the consumer callback base).

Modelling conventions (shallow embedding of the Solidity source):

* `bytes32` request ids are produced by
  `keccak256(abi.encodePacked(block.number, msg.sender, _nonce))`.  The hash is
  idealised as a free constructor `B32.hash blockNumber sender nonce`
  (collision resistance), with `B32.zero` standing for `bytes32(0)`.
* Addresses, block numbers and `uint256` values are `Nat`.  The only unchecked
  arithmetic in the source is the `unchecked { q.tail++ }` / `q.head = h + 1`
  of the queue library; wrapping would need `2^256` operations from a fresh
  queue, which no execution reaches, so increments are modelled exactly.
* Opaque byte strings and location strings (`bytes`, `string`) are `String`.
* Solidity mappings are total functions with the zero/default value on absent
  keys, updated with `upd` / `upd2`.
* A reverting call is `Except.error e`; EVM revert semantics roll the whole
  transaction back, so the post-transaction storage of a call is
  `applyTx result preState` (`preState` when the call reverted).
-/

/-- Pointwise update of a Solidity `mapping(α => β)`. -/
def upd {α β : Type} [DecidableEq α] (f : α → β) (a : α) (b : β) : α → β :=
  fun x => if x = a then b else f x

/-- Pointwise update of a two-level Solidity `mapping(α => mapping(β => γ))`. -/
def upd2 {α β γ : Type} [DecidableEq α] [DecidableEq β]
    (f : α → β → γ) (a : α) (b : β) (c : γ) : α → β → γ :=
  fun x y => if x = a ∧ y = b then c else f x y

theorem upd_same {α β : Type} [DecidableEq α] (f : α → β) (a : α) (b : β) :
    upd f a b a = b := by simp [upd]

theorem upd_other {α β : Type} [DecidableEq α] (f : α → β) {a x : α} (b : β)
    (h : x ≠ a) : upd f a b x = f x := by simp [upd, h]

theorem upd2_same {α β γ : Type} [DecidableEq α] [DecidableEq β]
    (f : α → β → γ) (a : α) (b : β) (c : γ) : upd2 f a b c a b = c := by
  simp [upd2]

theorem upd2_other {α β γ : Type} [DecidableEq α] [DecidableEq β]
    (f : α → β → γ) {a x : α} {b y : β} (c : γ) (h : ¬ (x = a ∧ y = b)) :
    upd2 f a b c x y = f x y := by simp [upd2, h]

/-- The storage state observed after a transaction: the new state on success,
the unchanged pre-state when the call reverted (EVM rollback). -/
def applyTx {ε α : Type} (r : Except ε α) (s : α) : α :=
  match r with
  | .ok s' => s'
  | .error _ => s

/-- `true` iff the transaction did not revert. -/
def isSuccess {ε α : Type} : Except ε α → Bool
  | .ok _ => true
  | .error _ => false

@[simp] theorem applyTx_ok {ε α : Type} (s' s : α) :
    applyTx (Except.ok (ε := ε) s') s = s' := rfl

@[simp] theorem applyTx_error {ε α : Type} (e : ε) (s : α) :
    applyTx (Except.error (α := α) e) s = s := rfl

/-- `bytes32` values as they occur in the coordinator: either the zero value
`bytes32(0)` or a request id
`keccak256(abi.encodePacked(block.number, msg.sender, _nonce))`, idealised as
a free constructor (keccak collision resistance). -/
inductive B32 where
  | zero
  | hash (blockNumber sender nonce : Nat)
deriving DecidableEq

/-- `enum RequestState { None, Sent, Completed }` of every coordinator
variant. -/
inductive RequestState where
  | None
  | Sent
  | Completed
deriving DecidableEq

/-- `struct Request` of the coordinator contracts.  The RBAC variant uses
`string` where the others use `bytes` for `newStateLocation`/`returnData`;
both are opaque payloads modelled as `String`. -/
structure Request where
  state : RequestState
  blockNumber : Nat
  requester : Nat
  nonce : Nat
  call : String
  bytecodeLocation : String
  currentStateLocation : String
  newStateLocation : String
  returnData : String
deriving DecidableEq

/-- The default value of a `Request` storage slot (absent mapping entry). -/
def Request.solDefault : Request :=
  { state := RequestState.None, blockNumber := 0, requester := 0, nonce := 0,
    call := "", bytecodeLocation := "", currentStateLocation := "",
    newStateLocation := "", returnData := "" }

/-- Revert reasons of the contracts under verification. -/
inductive SolError where
  | callerNotWhitelisted
  | invalidRequestState
  | earlierBytecodePending
  | earlierStatePending
  | requestDoesNotExist
  | queueEmpty
  | outOfOrder (requestId : B32)
  | unauthorizedRole
  | consumerUnsupported (consumer : Nat)
  | consumerReverted
deriving DecidableEq

namespace FIFOBytes32

/-- `struct Queue` of `library FIFOBytes32`: sparse `mapping(uint256 =>
bytes32)` backing store plus head/tail indices. -/
structure Queue where
  data : Nat → B32
  head : Nat
  tail : Nat

/-- A freshly declared queue: all storage slots zero. -/
def empty : Queue := { data := fun _ => B32.zero, head := 0, tail := 0 }

/-- `enqueue`: store at `tail`, increment `tail`. -/
def enqueue (q : Queue) (value : B32) : Queue :=
  { q with data := upd q.data q.tail value, tail := q.tail + 1 }

/-- `dequeue`: revert with `QueueEmpty` if `head == tail`, otherwise return
`data[head]` and increment `head`. -/
def dequeue (q : Queue) : Except SolError (B32 × Queue) :=
  if q.head = q.tail then Except.error SolError.queueEmpty
  else Except.ok (q.data q.head, { q with head := q.head + 1 })

/-- `peek`: revert with `QueueEmpty` if `head == tail`, otherwise return
`data[head]`. -/
def peek (q : Queue) : Except SolError B32 :=
  if q.head = q.tail then Except.error SolError.queueEmpty
  else Except.ok (q.data q.head)

/-- `isEmpty`: `head == tail`. -/
def isEmpty (q : Queue) : Bool := q.head = q.tail

/-- `length`: `tail - head`. -/
def length (q : Queue) : Nat := q.tail - q.head

/-- `indices`: the current `(head, tail)` pair. -/
def indices (q : Queue) : Nat × Nat := (q.head, q.tail)

/-- `resetIfEmpty`: reset both indices to 0 when `head == tail`. -/
def resetIfEmpty (q : Queue) : Queue :=
  if q.head = q.tail then { q with head := 0, tail := 0 } else q

end FIFOBytes32

/-!
## Partitioned coordinator variant

`BasicHybridCoordinator` keyed by `_minPendingNonceBytecode` /
`_minPendingNonceState` indices (the dependency-tracking variant of
`BasicHybridCoordinator.sol`).
-/

/-- Contract storage of the Partitioned coordinator variant. -/
structure PartState where
  nonce : Nat
  whitelist : Nat → Bool
  requests : B32 → Request
  minPendingNonceBytecode : String → Nat
  minPendingNonceState : String → Nat
  bytecodeNonceToRequest : String → Nat → B32
  stateNonceToRequest : String → Nat → B32

/-- Storage right after the constructor ran, for a given whitelist content.
The constructor body is empty; `addToWhitelist` / `removeFromWhitelist` only
mutate `_whitelist`, so reachable whitelist contents are arbitrary and the
initial state is parametrised by them. -/
def PartState.init (w : Nat → Bool) : PartState :=
  { nonce := 0, whitelist := w,
    requests := fun _ => Request.solDefault,
    minPendingNonceBytecode := fun _ => 0,
    minPendingNonceState := fun _ => 0,
    bytecodeNonceToRequest := fun _ _ => B32.zero,
    stateNonceToRequest := fun _ _ => B32.zero }

/-- Body of `sendOffchainCall` (after the `onlyWhitelisted` modifier):
increment `_nonce`, derive the request id, store the `Sent` record, register
it in both nonce-to-request maps and lower the two min-pending indices if
needed. -/
def PartState.sendBody (s : PartState) (blockNumber sender : Nat)
    (call bytecodeLocation currentStateLocation : String) : PartState × B32 :=
  let n := s.nonce + 1
  let requestId := B32.hash blockNumber sender n
  let req : Request :=
    { state := RequestState.Sent, blockNumber := blockNumber,
      requester := sender, nonce := n, call := call,
      bytecodeLocation := bytecodeLocation,
      currentStateLocation := currentStateLocation,
      newStateLocation := "", returnData := "" }
  let minB :=
    if s.minPendingNonceBytecode bytecodeLocation = 0 ∨
        n < s.minPendingNonceBytecode bytecodeLocation then
      upd s.minPendingNonceBytecode bytecodeLocation n
    else s.minPendingNonceBytecode
  let minS :=
    if s.minPendingNonceState currentStateLocation = 0 ∨
        n < s.minPendingNonceState currentStateLocation then
      upd s.minPendingNonceState currentStateLocation n
    else s.minPendingNonceState
  ({ nonce := n, whitelist := s.whitelist,
     requests := upd s.requests requestId req,
     minPendingNonceBytecode := minB,
     minPendingNonceState := minS,
     bytecodeNonceToRequest :=
       upd2 s.bytecodeNonceToRequest bytecodeLocation n requestId,
     stateNonceToRequest :=
       upd2 s.stateNonceToRequest currentStateLocation n requestId },
   requestId)

/-- `sendOffchainCall` of the Partitioned variant, `msg.sender = sender`:
the `onlyWhitelisted` modifier followed by the body. -/
def PartState.sendOffchainCall (s : PartState) (blockNumber sender : Nat)
    (call bytecodeLocation currentStateLocation : String) :
    Except SolError (PartState × B32) :=
  if s.whitelist sender = false then Except.error SolError.callerNotWhitelisted
  else Except.ok (s.sendBody blockNumber sender call bytecodeLocation
    currentStateLocation)

/-- Loop body of `_findNextPendingNonce`: scan `nextNonce, nextNonce+1, ...`
for `fuel` steps (the source iterates while `nextNonce <= _nonce`), returning
the first nonce whose map entry is a non-zero id in `Sent` state, else 0. -/
def findNextPendingNonceAux (s : PartState) (location : String)
    (isBytecode : Bool) : Nat → Nat → Nat
  | _, 0 => 0
  | nextNonce, fuel + 1 =>
    let nextRequestId :=
      if isBytecode then s.bytecodeNonceToRequest location nextNonce
      else s.stateNonceToRequest location nextNonce
    if nextRequestId ≠ B32.zero ∧
        (s.requests nextRequestId).state = RequestState.Sent then nextNonce
    else findNextPendingNonceAux s location isBytecode (nextNonce + 1) fuel

/-- `_findNextPendingNonce(location, currentNonce, isBytecode)`: search
forward from `currentNonce + 1` up to `_nonce` for the next pending nonce on
`location`, returning 0 if none exists. -/
def PartState.findNextPendingNonce (s : PartState) (location : String)
    (currentNonce : Nat) (isBytecode : Bool) : Nat :=
  findNextPendingNonceAux s location isBytecode (currentNonce + 1)
    (s.nonce - currentNonce)

/-- The storage updates of a successful `replyOffchainCall`: mark the request
`Completed` with the reply payload, then repair each min-pending index that
pointed at the completed nonce via `_findNextPendingNonce`.  The source reads
`currentRequest` through a storage pointer after the update; the fields it
reads (`bytecodeLocation`, `currentStateLocation`, `nonce`) are not among the
written ones (`state`, `newStateLocation`, `returnData`), so reading them
from the pre-update record below is the same. -/
def PartState.completeUpdate (s : PartState) (requestId : B32)
    (newStateLocation returnData : String) : PartState :=
  let currentRequest := s.requests requestId
  let completedRequest : Request :=
    { currentRequest with
      state := RequestState.Completed,
      newStateLocation := newStateLocation, returnData := returnData }
  let s1 : PartState :=
    { s with requests := upd s.requests requestId completedRequest }
  let s2 : PartState :=
    if s1.minPendingNonceBytecode currentRequest.bytecodeLocation =
        currentRequest.nonce then
      { s1 with
        minPendingNonceBytecode :=
          upd s1.minPendingNonceBytecode currentRequest.bytecodeLocation
            (s1.findNextPendingNonce currentRequest.bytecodeLocation
              currentRequest.nonce true) }
    else s1
  let s3 : PartState :=
    if s2.minPendingNonceState currentRequest.currentStateLocation =
        currentRequest.nonce then
      { s2 with
        minPendingNonceState :=
          upd s2.minPendingNonceState currentRequest.currentStateLocation
            (s2.findNextPendingNonce currentRequest.currentStateLocation
              currentRequest.nonce false) }
    else s2
  s3

/-- Body of `replyOffchainCall` (after the `onlyWhitelisted` modifier):
require `Sent` state, check both min-pending guards, then apply the
completion updates. -/
def PartState.replyBody (s : PartState) (requestId : B32)
    (newStateLocation returnData : String) : Except SolError PartState :=
  if (s.requests requestId).state ≠ RequestState.Sent then
    Except.error SolError.invalidRequestState
  else
    let currentRequest := s.requests requestId
    let minBytecodeNonce :=
      s.minPendingNonceBytecode currentRequest.bytecodeLocation
    if minBytecodeNonce ≠ 0 ∧ minBytecodeNonce < currentRequest.nonce then
      Except.error SolError.earlierBytecodePending
    else
      let minStateNonce :=
        s.minPendingNonceState currentRequest.currentStateLocation
      if minStateNonce ≠ 0 ∧ minStateNonce < currentRequest.nonce then
        Except.error SolError.earlierStatePending
      else
        Except.ok (s.completeUpdate requestId newStateLocation returnData)

/-- `replyOffchainCall` of the Partitioned variant, `msg.sender = sender`. -/
def PartState.replyOffchainCall (s : PartState) (sender : Nat)
    (requestId : B32) (newStateLocation returnData : String) :
    Except SolError PartState :=
  if s.whitelist sender = false then Except.error SolError.callerNotWhitelisted
  else s.replyBody requestId newStateLocation returnData

/-- `canProcessRequest` (view, no whitelist modifier): require the request to
exist, return `(true, 0)` when already completed, otherwise check the two
min-pending guards, reporting the blocking request id on violation. -/
def PartState.canProcessRequest (s : PartState) (requestId : B32) :
    Except SolError (Bool × B32) :=
  let currentRequest := s.requests requestId
  if currentRequest.state = RequestState.None then
    Except.error SolError.requestDoesNotExist
  else if currentRequest.state = RequestState.Completed then
    Except.ok (true, B32.zero)
  else
    let minBytecodeNonce :=
      s.minPendingNonceBytecode currentRequest.bytecodeLocation
    if minBytecodeNonce ≠ 0 ∧ minBytecodeNonce < currentRequest.nonce then
      Except.ok (false,
        s.bytecodeNonceToRequest currentRequest.bytecodeLocation
          minBytecodeNonce)
    else
      let minStateNonce :=
        s.minPendingNonceState currentRequest.currentStateLocation
      if minStateNonce ≠ 0 ∧ minStateNonce < currentRequest.nonce then
        Except.ok (false,
          s.stateNonceToRequest currentRequest.currentStateLocation
            minStateNonce)
      else Except.ok (true, B32.zero)

/-- `getRequestState` (view). -/
def PartState.getRequestState (s : PartState) (requestId : B32) :
    RequestState :=
  (s.requests requestId).state

/-- States of the Partitioned coordinator reachable from deployment by
`sendOffchainCall` transactions, successful `replyOffchainCall` transactions
and whitelist administration (which only rewrites `_whitelist`). -/
inductive PartReach : PartState → Prop where
  | init (w : Nat → Bool) : PartReach (PartState.init w)
  | send {s s' : PartState} {id : B32} (blockNumber sender : Nat)
      (call bytecodeLocation currentStateLocation : String) :
      PartReach s →
      s.sendOffchainCall blockNumber sender call bytecodeLocation
        currentStateLocation = Except.ok (s', id) →
      PartReach s'
  | reply {s s' : PartState} (sender : Nat) (requestId : B32)
      (newStateLocation returnData : String) :
      PartReach s →
      s.replyOffchainCall sender requestId newStateLocation returnData =
        Except.ok s' →
      PartReach s'
  | setWhitelist {s : PartState} (w : Nat → Bool) :
      PartReach s → PartReach { s with whitelist := w }

/-!
## Global FIFO coordinator variant

The `BasicHybridCoordinator` variant backed by a single `FIFOBytes32.Queue`
(`globalQueue`).
-/

/-- Contract storage of the Global FIFO coordinator variant. -/
structure GFState where
  nonce : Nat
  whitelist : Nat → Bool
  requests : B32 → Request
  globalQueue : FIFOBytes32.Queue

/-- Storage right after the constructor ran (whitelist parametrised as for
the Partitioned variant). -/
def GFState.init (w : Nat → Bool) : GFState :=
  { nonce := 0, whitelist := w,
    requests := fun _ => Request.solDefault,
    globalQueue := FIFOBytes32.empty }

/-- Body of the Global FIFO `sendOffchainCall`: increment `_nonce`, derive
the id, store the `Sent` record, enqueue the id on `globalQueue`. -/
def GFState.sendBody (s : GFState) (blockNumber sender : Nat)
    (call bytecodeLocation currentStateLocation : String) : GFState × B32 :=
  let n := s.nonce + 1
  let requestId := B32.hash blockNumber sender n
  let req : Request :=
    { state := RequestState.Sent, blockNumber := blockNumber,
      requester := sender, nonce := n, call := call,
      bytecodeLocation := bytecodeLocation,
      currentStateLocation := currentStateLocation,
      newStateLocation := "", returnData := "" }
  ({ nonce := n, whitelist := s.whitelist,
     requests := upd s.requests requestId req,
     globalQueue := FIFOBytes32.enqueue s.globalQueue requestId },
   requestId)

/-- `sendOffchainCall` of the Global FIFO variant. -/
def GFState.sendOffchainCall (s : GFState) (blockNumber sender : Nat)
    (call bytecodeLocation currentStateLocation : String) :
    Except SolError (GFState × B32) :=
  if s.whitelist sender = false then Except.error SolError.callerNotWhitelisted
  else Except.ok (s.sendBody blockNumber sender call bytecodeLocation
    currentStateLocation)

/-- Body of the Global FIFO `replyOffchainCall`: require `Sent`, revert with
`errorFulfillingOutOfOrder` unless the id is at the front of `globalQueue`,
dequeue, and set the state to `Completed`.  Note that this variant stores
neither `newStateLocation` nor `returnData` on the request record. -/
def GFState.replyBody (s : GFState) (requestId : B32)
    (newStateLocation returnData : String) : Except SolError GFState :=
  if (s.requests requestId).state ≠ RequestState.Sent then
    Except.error SolError.invalidRequestState
  else
    match FIFOBytes32.peek s.globalQueue with
    | Except.error e => Except.error e
    | Except.ok front =>
      if front ≠ requestId then
        Except.error (SolError.outOfOrder requestId)
      else
        match FIFOBytes32.dequeue s.globalQueue with
        | Except.error e => Except.error e
        | Except.ok (_, q') =>
          let currentRequest := s.requests requestId
          Except.ok
            { s with
              globalQueue := q',
              requests := upd s.requests requestId
                { currentRequest with state := RequestState.Completed } }

/-- `replyOffchainCall` of the Global FIFO variant (the two `calldata`
arguments are only used in the emitted event). -/
def GFState.replyOffchainCall (s : GFState) (sender : Nat) (requestId : B32)
    (newStateLocation returnData : String) : Except SolError GFState :=
  if s.whitelist sender = false then Except.error SolError.callerNotWhitelisted
  else s.replyBody requestId newStateLocation returnData

/-- `nextRequest` (view): front of the queue, or `bytes32(0)` when empty. -/
def GFState.nextRequest (s : GFState) : B32 :=
  if FIFOBytes32.isEmpty s.globalQueue then B32.zero
  else
    match FIFOBytes32.peek s.globalQueue with
    | Except.ok v => v
    | Except.error _ => B32.zero

/-- Reachable states of the Global FIFO coordinator. -/
inductive GFReach : GFState → Prop where
  | init (w : Nat → Bool) : GFReach (GFState.init w)
  | send {s s' : GFState} {id : B32} (blockNumber sender : Nat)
      (call bytecodeLocation currentStateLocation : String) :
      GFReach s →
      s.sendOffchainCall blockNumber sender call bytecodeLocation
        currentStateLocation = Except.ok (s', id) →
      GFReach s'
  | reply {s s' : GFState} (sender : Nat) (requestId : B32)
      (newStateLocation returnData : String) :
      GFReach s →
      s.replyOffchainCall sender requestId newStateLocation returnData =
        Except.ok s' →
      GFReach s'
  | setWhitelist {s : GFState} (w : Nat → Bool) :
      GFReach s → GFReach { s with whitelist := w }

/-!
## RBAC coordinator variant

The `BasicHybridCoordinator` variant with OpenZeppelin `AccessControl`
roles, EIP-165 capability negotiation at admission and consumer callback
dispatch at completion.
-/

/-- The three roles of the RBAC variant. -/
inductive Role where
  | admin
  | consumer
  | processor
deriving DecidableEq

/-- Contract storage of the RBAC coordinator variant. -/
structure RBACState where
  nonce : Nat
  roles : Role → Nat → Bool
  requests : B32 → Request
  globalQueue : FIFOBytes32.Queue

/-- Storage right after the constructor ran, parametrised by the role
assignment (the constructor grants `DEFAULT_ADMIN_ROLE` to the deployer;
`grantRole` / `revokeRole` / `renounceRole` only mutate the role maps). -/
def RBACState.init (r : Role → Nat → Bool) : RBACState :=
  { nonce := 0, roles := r,
    requests := fun _ => Request.solDefault,
    globalQueue := FIFOBytes32.empty }

/-- `sendOffchainCall` of the RBAC variant.  `supportsIface sender` is the
result of the EIP-165 staticcall
`IERC165(msg.sender).supportsInterface(type(IResponseOffchainCallConsumer).interfaceId)`,
an external observation of the caller contract. -/
def RBACState.sendOffchainCall (s : RBACState) (supportsIface : Nat → Bool)
    (blockNumber sender : Nat)
    (call bytecodeLocation currentStateLocation : String) :
    Except SolError (RBACState × B32) :=
  if s.roles Role.consumer sender = false then
    Except.error SolError.unauthorizedRole
  else if supportsIface sender = false then
    Except.error (SolError.consumerUnsupported sender)
  else
    let n := s.nonce + 1
    let requestId := B32.hash blockNumber sender n
    let req : Request :=
      { state := RequestState.Sent, blockNumber := blockNumber,
        requester := sender, nonce := n, call := call,
        bytecodeLocation := bytecodeLocation,
        currentStateLocation := currentStateLocation,
        newStateLocation := "", returnData := "" }
    Except.ok
      ({ nonce := n, roles := s.roles,
         requests := upd s.requests requestId req,
         globalQueue := FIFOBytes32.enqueue s.globalQueue requestId },
       requestId)

/-- `replyOffchainCall` of the RBAC variant.  `handler requester id nsl rd`
models the external call
`IResponseOffchainCallConsumer(currentRequest.requester).onOffchainCallResponse(...)`;
an `Except.error` result is a revert inside the consumer, which (there being
no try/catch in the source) aborts the whole `replyOffchainCall`
transaction. -/
def RBACState.replyOffchainCall (s : RBACState)
    (handler : Nat → B32 → String → String → Except Unit Unit)
    (sender : Nat) (requestId : B32)
    (newStateLocation returnData : String) : Except SolError RBACState :=
  if s.roles Role.processor sender = false then
    Except.error SolError.unauthorizedRole
  else if (s.requests requestId).state ≠ RequestState.Sent then
    Except.error SolError.invalidRequestState
  else
    match FIFOBytes32.peek s.globalQueue with
    | Except.error e => Except.error e
    | Except.ok front =>
      if front ≠ requestId then
        Except.error (SolError.outOfOrder requestId)
      else
        match FIFOBytes32.dequeue s.globalQueue with
        | Except.error e => Except.error e
        | Except.ok (_, q') =>
          let currentRequest := s.requests requestId
          let completedRequest : Request :=
            { currentRequest with
              state := RequestState.Completed,
              newStateLocation := newStateLocation,
              returnData := returnData }
          let s' : RBACState :=
            { s with
              globalQueue := q',
              requests := upd s.requests requestId completedRequest }
          match handler (s'.requests requestId).requester requestId
              newStateLocation returnData with
          | Except.error _ => Except.error SolError.consumerReverted
          | Except.ok _ => Except.ok s'

/-!
## Queue operation sequences (for the ring-buffer claims)

The `FIFOBytes32Harness` contract exposes `enqueue`, `dequeue` and
`resetIfEmpty` as transactions; a reverted `dequeue` leaves the queue
unchanged.
-/

/-- One harness transaction on a `FIFOBytes32.Queue`. -/
inductive QOp where
  | enqueue (value : B32)
  | dequeue
  | resetIfEmpty

/-- Apply one harness transaction (a reverting `dequeue` rolls back). -/
def QOp.apply (q : FIFOBytes32.Queue) : QOp → FIFOBytes32.Queue
  | QOp.enqueue v => FIFOBytes32.enqueue q v
  | QOp.dequeue =>
    match FIFOBytes32.dequeue q with
    | Except.ok (_, q') => q'
    | Except.error _ => q
  | QOp.resetIfEmpty => FIFOBytes32.resetIfEmpty q

/-- Run a sequence of harness transactions. -/
def runQOps (q : FIFOBytes32.Queue) (ops : List QOp) : FIFOBytes32.Queue :=
  ops.foldl QOp.apply q

/-- The dequeued value of a `dequeue` transaction (zero if it reverted). -/
def deqValue (q : FIFOBytes32.Queue) : B32 :=
  match FIFOBytes32.dequeue q with
  | Except.ok (v, _) => v
  | Except.error _ => B32.zero

/-- The queue left by a `dequeue` transaction (unchanged if it reverted). -/
def afterDeq (q : FIFOBytes32.Queue) : FIFOBytes32.Queue :=
  match FIFOBytes32.dequeue q with
  | Except.ok (_, q') => q'
  | Except.error _ => q

/-!
## Concrete executions

Small concrete states used to instantiate the theorems below.
-/

/-- A whitelist admitting every caller (reached by `addToWhitelist`). -/
def exW : Nat → Bool := fun _ => true

def pEx0 : PartState := PartState.init exW

/-- Id of the first example request (block 7, sender 1, nonce 1). -/
def pId1 : B32 := B32.hash 7 1 1

/-- Id of the second example request (block 7, sender 1, nonce 2). -/
def pId2 : B32 := B32.hash 7 1 2

/-- Partitioned state after one `sendOffchainCall` on keys `"c1"`/`"s1"`. -/
def pEx1 : PartState :=
  match pEx0.sendOffchainCall 7 1 "c" "c1" "s1" with
  | Except.ok (t, _) => t
  | Except.error _ => pEx0

/-- Partitioned state after a second `sendOffchainCall` on the same keys. -/
def pEx2 : PartState :=
  match pEx1.sendOffchainCall 7 1 "c" "c1" "s1" with
  | Except.ok (t, _) => t
  | Except.error _ => pEx1

/-- Partitioned state after completing the only request of `pEx1`. -/
def pEx1c : PartState :=
  applyTx (pEx1.replyOffchainCall 1 pId1 "ns" "rd") pEx1

theorem pEx1_send :
    pEx0.sendOffchainCall 7 1 "c" "c1" "s1" = Except.ok (pEx1, pId1) := rfl

theorem pEx2_send :
    pEx1.sendOffchainCall 7 1 "c" "c1" "s1" = Except.ok (pEx2, pId2) := rfl

theorem pEx1c_reply :
    pEx1.replyOffchainCall 1 pId1 "ns" "rd" = Except.ok pEx1c := rfl

theorem pReach1 : PartReach pEx1 :=
  PartReach.send 7 1 "c" "c1" "s1" (PartReach.init exW) pEx1_send

theorem pReach2 : PartReach pEx2 :=
  PartReach.send 7 1 "c" "c1" "s1" pReach1 pEx2_send

theorem pReach1c : PartReach pEx1c :=
  PartReach.reply 1 pId1 "ns" "rd" pReach1 pEx1c_reply

def gEx0 : GFState := GFState.init exW

/-- Id of the first Global FIFO example request. -/
def gId1 : B32 := B32.hash 5 1 1

/-- Id of the second Global FIFO example request. -/
def gId2 : B32 := B32.hash 5 1 2

/-- Global FIFO state after one `sendOffchainCall`. -/
def gEx1 : GFState :=
  match gEx0.sendOffchainCall 5 1 "c" "c1" "s1" with
  | Except.ok (t, _) => t
  | Except.error _ => gEx0

/-- Global FIFO state after a second `sendOffchainCall`. -/
def gEx2 : GFState :=
  match gEx1.sendOffchainCall 5 1 "c" "c1" "s1" with
  | Except.ok (t, _) => t
  | Except.error _ => gEx1

theorem gEx1_send :
    gEx0.sendOffchainCall 5 1 "c" "c1" "s1" = Except.ok (gEx1, gId1) := rfl

theorem gEx2_send :
    gEx1.sendOffchainCall 5 1 "c" "c1" "s1" = Except.ok (gEx2, gId2) := rfl

theorem gReach1 : GFReach gEx1 :=
  GFReach.send 5 1 "c" "c1" "s1" (GFReach.init exW) gEx1_send

theorem gReach2 : GFReach gEx2 :=
  GFReach.send 5 1 "c" "c1" "s1" gReach1 gEx2_send

/-- A role assignment granting every role to everyone (reached by
`grantRole`). -/
def exRoles : Role → Nat → Bool := fun _ _ => true

/-- Every caller advertises `IResponseOffchainCallConsumer` support. -/
def exSupports : Nat → Bool := fun _ => true

/-- No caller advertises `IResponseOffchainCallConsumer` support. -/
def noSupports : Nat → Bool := fun _ => false

/-- A consumer handler that always reverts. -/
def throwHandler : Nat → B32 → String → String → Except Unit Unit :=
  fun _ _ _ _ => Except.error ()

/-- A consumer handler that always succeeds. -/
def okHandler : Nat → B32 → String → String → Except Unit Unit :=
  fun _ _ _ _ => Except.ok ()

def rEx0 : RBACState := RBACState.init exRoles

/-- Id of the first RBAC example request. -/
def rId1 : B32 := B32.hash 3 1 1

/-- RBAC state after one `sendOffchainCall`. -/
def rEx1 : RBACState :=
  match rEx0.sendOffchainCall exSupports 3 1 "c" "c1" "s1" with
  | Except.ok (t, _) => t
  | Except.error _ => rEx0

theorem rEx1_send :
    rEx0.sendOffchainCall exSupports 3 1 "c" "c1" "s1" =
      Except.ok (rEx1, rId1) := rfl

/-- RBAC state after completing the only request of `rEx1` (handler ok). -/
def rEx1c : RBACState :=
  applyTx (rEx1.replyOffchainCall okHandler 2 rId1 "ns" "rd") rEx1

theorem rEx1c_reply :
    rEx1.replyOffchainCall okHandler 2 rId1 "ns" "rd" = Except.ok rEx1c := rfl

/-- Queue values 1, 2, 3 of Scenario C. -/
def qv1 : B32 := B32.hash 0 0 1

def qv2 : B32 := B32.hash 0 0 2

def qv3 : B32 := B32.hash 0 0 3

/-- Fresh queue after enqueuing `qv1`, `qv2`, `qv3`. -/
def qA : FIFOBytes32.Queue :=
  FIFOBytes32.enqueue
    (FIFOBytes32.enqueue (FIFOBytes32.enqueue FIFOBytes32.empty qv1) qv2) qv3

def qB : FIFOBytes32.Queue := afterDeq qA

def qC : FIFOBytes32.Queue := afterDeq qB

def qD : FIFOBytes32.Queue := afterDeq qC

def qE : FIFOBytes32.Queue := FIFOBytes32.resetIfEmpty qD

/-!
## Invariant of the Partitioned coordinator

The two resource-key kinds (bytecode location, state location) are handled
uniformly through the `isBytecode : Bool` selector that the source itself
uses in `_findNextPendingNonce`.
-/

/-- The nonce-to-request map selected by `isBytecode`. -/
def PartState.lookupMap (s : PartState) (isBytecode : Bool) :
    String → Nat → B32 :=
  if isBytecode then s.bytecodeNonceToRequest else s.stateNonceToRequest

/-- The min-pending index selected by `isBytecode`. -/
def PartState.minOf (s : PartState) (isBytecode : Bool) : String → Nat :=
  if isBytecode then s.minPendingNonceBytecode else s.minPendingNonceState

/-- The resource key of a request selected by `isBytecode`. -/
def Request.keyOf (r : Request) (isBytecode : Bool) : String :=
  if isBytecode then r.bytecodeLocation else r.currentStateLocation

/-- `id` is a still-pending (`Sent`) request whose `isBytecode`-key is `k`. -/
def PartState.pendingOn (s : PartState) (b : Bool) (k : String) (id : B32) :
    Prop :=
  (s.requests id).state = RequestState.Sent ∧ (s.requests id).keyOf b = k

/-- The loop condition of `_findNextPendingNonce` at nonce `m`: the map entry
is a non-zero id whose request is still `Sent`. -/
def PartState.hitAt (s : PartState) (k : String) (b : Bool) (m : Nat) :
    Prop :=
  s.lookupMap b k m ≠ B32.zero ∧
  (s.requests (s.lookupMap b k m)).state = RequestState.Sent

theorem lookupMap_apply (s : PartState) (b : Bool) (k : String) (m : Nat) :
    s.lookupMap b k m =
      if b then s.bytecodeNonceToRequest k m else s.stateNonceToRequest k m :=
  by cases b <;> rfl

/-- Inductive invariant of the Partitioned coordinator: request nonces are
positive, bounded by the counter and consistent with the id derivation; the
two nonce-to-request maps are exactly the graph of the non-`None` requests;
and each min-pending index is 0 exactly when no request with that key is
pending, and otherwise the minimum pending nonce on that key. -/
structure PartInv (s : PartState) : Prop where
  hash_nonce : ∀ bn snd n,
    (s.requests (B32.hash bn snd n)).state ≠ RequestState.None →
    (s.requests (B32.hash bn snd n)).nonce = n
  zero_none : (s.requests B32.zero).state = RequestState.None
  nonce_pos : ∀ id, (s.requests id).state ≠ RequestState.None →
    1 ≤ (s.requests id).nonce
  nonce_le : ∀ id, (s.requests id).state ≠ RequestState.None →
    (s.requests id).nonce ≤ s.nonce
  map_req : ∀ b id, (s.requests id).state ≠ RequestState.None →
    s.lookupMap b ((s.requests id).keyOf b) (s.requests id).nonce = id
  map_sound : ∀ b k n, s.lookupMap b k n ≠ B32.zero →
    (s.requests (s.lookupMap b k n)).state ≠ RequestState.None ∧
    (s.requests (s.lookupMap b k n)).nonce = n ∧
    (s.requests (s.lookupMap b k n)).keyOf b = k
  min_zero : ∀ b k, s.minOf b k = 0 → ∀ id, ¬ s.pendingOn b k id
  min_mem : ∀ b k, s.minOf b k ≠ 0 →
    ∃ id, s.pendingOn b k id ∧ (s.requests id).nonce = s.minOf b k
  min_le : ∀ b k id, s.pendingOn b k id →
    s.minOf b k ≤ (s.requests id).nonce

theorem partInv_init (w : Nat → Bool) : PartInv (PartState.init w) := by
  refine ⟨?_, ?_, ?_, ?_, ?_, ?_, ?_, ?_, ?_⟩
  · intro bn snd n h
    exact absurd rfl h
  · rfl
  · intro id h
    exact absurd rfl h
  · intro id h
    exact absurd rfl h
  · intro b id h
    exact absurd rfl h
  · intro b k n h
    cases b <;> exact absurd rfl h
  · intro b k _ id hpend
    exact RequestState.noConfusion hpend.1
  · intro b k h
    cases b <;> exact absurd rfl h
  · intro b k id hpend
    exact RequestState.noConfusion hpend.1

theorem sent_ne_none {r : RequestState} (h : r = RequestState.Sent) :
    r ≠ RequestState.None := by
  rw [h]
  intro hx
  exact RequestState.noConfusion hx

/-- The request record written by `sendOffchainCall`. -/
def sentRecord (bn snd n : Nat) (c bl csl : String) : Request :=
  { state := RequestState.Sent, blockNumber := bn, requester := snd,
    nonce := n, call := c, bytecodeLocation := bl,
    currentStateLocation := csl, newStateLocation := "", returnData := "" }

theorem sendBody_nonce (s : PartState) (bn snd : Nat) (c bl csl : String) :
    (s.sendBody bn snd c bl csl).1.nonce = s.nonce + 1 := rfl

theorem sendBody_snd (s : PartState) (bn snd : Nat) (c bl csl : String) :
    (s.sendBody bn snd c bl csl).2 = B32.hash bn snd (s.nonce + 1) := rfl

theorem sendBody_requests (s : PartState) (bn snd : Nat)
    (c bl csl : String) :
    (s.sendBody bn snd c bl csl).1.requests =
      upd s.requests (B32.hash bn snd (s.nonce + 1))
        (sentRecord bn snd (s.nonce + 1) c bl csl) := rfl

theorem sendBody_lookupMap (s : PartState) (bn snd : Nat)
    (c bl csl : String) (b : Bool) :
    (s.sendBody bn snd c bl csl).1.lookupMap b =
      upd2 (s.lookupMap b) (if b then bl else csl) (s.nonce + 1)
        (B32.hash bn snd (s.nonce + 1)) := by cases b <;> rfl

theorem sendBody_minOf (s : PartState) (bn snd : Nat)
    (c bl csl : String) (b : Bool) :
    (s.sendBody bn snd c bl csl).1.minOf b =
      if s.minOf b (if b then bl else csl) = 0 ∨
          s.nonce + 1 < s.minOf b (if b then bl else csl) then
        upd (s.minOf b) (if b then bl else csl) (s.nonce + 1)
      else s.minOf b := by cases b <;> rfl

theorem keyOf_sentRecord (bn snd n : Nat) (c bl csl : String) (b : Bool) :
    (sentRecord bn snd n c bl csl).keyOf b = if b then bl else csl := by
  cases b <;> rfl

theorem nonce_sentRecord (bn snd n : Nat) (c bl csl : String) :
    (sentRecord bn snd n c bl csl).nonce = n := rfl

theorem state_sentRecord (bn snd n : Nat) (c bl csl : String) :
    (sentRecord bn snd n c bl csl).state = RequestState.Sent := rfl

/-- `sendOffchainCall` preserves the Partitioned invariant. -/
theorem partInv_sendBody {s : PartState} (hI : PartInv s)
    (bn snd : Nat) (c bl csl : String) :
    PartInv (s.sendBody bn snd c bl csl).1 := by
  have hfresh : (s.requests (B32.hash bn snd (s.nonce + 1))).state =
      RequestState.None := by
    by_contra h
    have h1 := hI.hash_nonce bn snd (s.nonce + 1) h
    have h2 := hI.nonce_le _ h
    omega
  refine ⟨?_, ?_, ?_, ?_, ?_, ?_, ?_, ?_, ?_⟩
  · -- hash_nonce
    intro bn' snd' n' h
    rw [sendBody_requests] at h ⊢
    by_cases he : B32.hash bn' snd' n' = B32.hash bn snd (s.nonce + 1)
    · injection he with e1 e2 e3
      subst e1; subst e2; subst e3
      rw [upd_same]
      rfl
    · rw [upd_other _ _ he] at h ⊢
      exact hI.hash_nonce bn' snd' n' h
  · -- zero_none
    rw [sendBody_requests,
      upd_other _ _ (fun hx => B32.noConfusion hx)]
    exact hI.zero_none
  · -- nonce_pos
    intro id h
    rw [sendBody_requests] at h ⊢
    by_cases he : id = B32.hash bn snd (s.nonce + 1)
    · subst he
      rw [upd_same, nonce_sentRecord]
      omega
    · rw [upd_other _ _ he] at h ⊢
      exact hI.nonce_pos id h
  · -- nonce_le
    intro id h
    rw [sendBody_requests] at h ⊢
    rw [sendBody_nonce]
    by_cases he : id = B32.hash bn snd (s.nonce + 1)
    · subst he
      rw [upd_same, nonce_sentRecord]
    · rw [upd_other _ _ he] at h ⊢
      have := hI.nonce_le id h
      omega
  · -- map_req
    intro b id h
    rw [sendBody_requests] at h ⊢
    rw [sendBody_lookupMap]
    by_cases he : id = B32.hash bn snd (s.nonce + 1)
    · subst he
      rw [upd_same, keyOf_sentRecord, nonce_sentRecord]
      exact upd2_same _ _ _ _
    · rw [upd_other _ _ he] at h ⊢
      rw [upd2_other]
      · exact hI.map_req b id h
      · intro hc
        have := hI.nonce_le id h
        omega
  · -- map_sound
    intro b k m hne
    rw [sendBody_lookupMap] at hne ⊢
    rw [sendBody_requests]
    by_cases hc : k = (if b then bl else csl) ∧ m = s.nonce + 1
    · obtain ⟨hk, hm⟩ := hc
      subst hk; subst hm
      rw [upd2_same] at hne ⊢
      rw [upd_same]
      refine ⟨?_, rfl, keyOf_sentRecord bn snd _ c bl csl b⟩
      intro hx
      exact RequestState.noConfusion hx
    · rw [upd2_other _ _ hc] at hne ⊢
      have hold := hI.map_sound b k m hne
      have hne_rid : s.lookupMap b k m ≠ B32.hash bn snd (s.nonce + 1) := by
        intro hx
        rw [hx] at hold
        exact hold.1 hfresh
      rw [upd_other _ _ hne_rid]
      exact hold
  · -- min_zero
    intro b k hzero id hpend
    obtain ⟨hst, hkey⟩ := hpend
    rw [sendBody_minOf] at hzero
    rw [sendBody_requests] at hst hkey
    by_cases hk : k = (if b then bl else csl)
    · subst hk
      by_cases hcond : s.minOf b (if b then bl else csl) = 0 ∨
          s.nonce + 1 < s.minOf b (if b then bl else csl)
      · rw [if_pos hcond, upd_same] at hzero
        omega
      · rw [if_neg hcond] at hzero
        exact hcond (Or.inl hzero)
    · have heq : (if s.minOf b (if b then bl else csl) = 0 ∨
          s.nonce + 1 < s.minOf b (if b then bl else csl) then
            upd (s.minOf b) (if b then bl else csl) (s.nonce + 1)
          else s.minOf b) k = s.minOf b k := by
        by_cases hcond2 : s.minOf b (if b then bl else csl) = 0 ∨
            s.nonce + 1 < s.minOf b (if b then bl else csl)
        · rw [if_pos hcond2]
          exact upd_other _ _ hk
        · rw [if_neg hcond2]
      rw [heq] at hzero
      by_cases he : id = B32.hash bn snd (s.nonce + 1)
      · subst he
        rw [upd_same, keyOf_sentRecord] at hkey
        exact hk hkey.symm
      · rw [upd_other _ _ he] at hst hkey
        exact hI.min_zero b k hzero id ⟨hst, hkey⟩
  · -- min_mem
    intro b k hne
    rw [sendBody_minOf] at hne ⊢
    simp only [PartState.pendingOn, sendBody_requests]
    by_cases hk : k = (if b then bl else csl)
    · subst hk
      by_cases hcond : s.minOf b (if b then bl else csl) = 0 ∨
          s.nonce + 1 < s.minOf b (if b then bl else csl)
      · rw [if_pos hcond, upd_same]
        refine ⟨B32.hash bn snd (s.nonce + 1), ⟨?_, ?_⟩, ?_⟩
        · rw [upd_same, state_sentRecord]
        · rw [upd_same, keyOf_sentRecord]
        · rw [upd_same, nonce_sentRecord]
      · rw [if_neg hcond] at hne ⊢
        obtain ⟨id0, ⟨hp1, hp2⟩, hnonce0⟩ := hI.min_mem b _ hne
        have hid0 : id0 ≠ B32.hash bn snd (s.nonce + 1) := by
          intro hx
          rw [hx, hfresh] at hp1
          exact RequestState.noConfusion hp1
        exact ⟨id0, ⟨by rw [upd_other _ _ hid0]; exact hp1,
          by rw [upd_other _ _ hid0]; exact hp2⟩,
          by rw [upd_other _ _ hid0]; exact hnonce0⟩
    · have heq : (if s.minOf b (if b then bl else csl) = 0 ∨
          s.nonce + 1 < s.minOf b (if b then bl else csl) then
            upd (s.minOf b) (if b then bl else csl) (s.nonce + 1)
          else s.minOf b) k = s.minOf b k := by
        by_cases hcond2 : s.minOf b (if b then bl else csl) = 0 ∨
            s.nonce + 1 < s.minOf b (if b then bl else csl)
        · rw [if_pos hcond2]
          exact upd_other _ _ hk
        · rw [if_neg hcond2]
      rw [heq] at hne ⊢
      obtain ⟨id0, ⟨hp1, hp2⟩, hnonce0⟩ := hI.min_mem b k hne
      have hid0 : id0 ≠ B32.hash bn snd (s.nonce + 1) := by
        intro hx
        rw [hx, hfresh] at hp1
        exact RequestState.noConfusion hp1
      exact ⟨id0, ⟨by rw [upd_other _ _ hid0]; exact hp1,
        by rw [upd_other _ _ hid0]; exact hp2⟩,
        by rw [upd_other _ _ hid0]; exact hnonce0⟩
  · -- min_le
    intro b k id hpend
    obtain ⟨hst, hkey⟩ := hpend
    rw [sendBody_requests] at hst hkey
    rw [sendBody_minOf, sendBody_requests]
    by_cases he : id = B32.hash bn snd (s.nonce + 1)
    · subst he
      rw [upd_same, keyOf_sentRecord] at hkey
      subst hkey
      rw [upd_same, nonce_sentRecord]
      by_cases hcond : s.minOf b (if b then bl else csl) = 0 ∨
          s.nonce + 1 < s.minOf b (if b then bl else csl)
      · rw [if_pos hcond, upd_same]
      · rw [if_neg hcond]
        have := not_or.mp hcond
        omega
    · rw [upd_other _ _ he] at hst hkey
      rw [upd_other _ _ he]
      have hold := hI.min_le b k id ⟨hst, hkey⟩
      by_cases hk : k = (if b then bl else csl)
    
      · subst hk
        by_cases hcond : s.minOf b (if b then bl else csl) = 0 ∨
            s.nonce + 1 < s.minOf b (if b then bl else csl)
        · rcases hcond with h0 | hlt
          · exact absurd ⟨hst, hkey⟩ (hI.min_zero b _ h0 id)
          · have h2 := hI.nonce_le id (sent_ne_none hst)
            omega
        · rw [if_neg hcond]
          exact hold
      · have heq : (if s.minOf b (if b then bl else csl) = 0 ∨
            s.nonce + 1 < s.minOf b (if b then bl else csl) then
              upd (s.minOf b) (if b then bl else csl) (s.nonce + 1)
            else s.minOf b) k = s.minOf b k := by
          by_cases hcond2 : s.minOf b (if b then bl else csl) = 0 ∨
              s.nonce + 1 < s.minOf b (if b then bl else csl)
          · rw [if_pos hcond2]
            exact upd_other _ _ hk
          · rw [if_neg hcond2]
        rw [heq]
        exact hold

theorem findNextPendingNonceAux_congr {t t' : PartState}
    (hr : t.requests = t'.requests)
    (hb : t.bytecodeNonceToRequest = t'.bytecodeNonceToRequest)
    (hs : t.stateNonceToRequest = t'.stateNonceToRequest)
    (k : String) (b : Bool) :
    ∀ fuel j, findNextPendingNonceAux t k b j fuel =
      findNextPendingNonceAux t' k b j fuel := by
  intro fuel
  induction fuel with
  | zero => intro j; rfl
  | succ f ih =>
    intro j
    simp only [findNextPendingNonceAux, hr, hb, hs, ih]

theorem findNextPendingNonce_congr {t t' : PartState}
    (hr : t.requests = t'.requests)
    (hb : t.bytecodeNonceToRequest = t'.bytecodeNonceToRequest)
    (hs : t.stateNonceToRequest = t'.stateNonceToRequest)
    (hn : t.nonce = t'.nonce) (k : String) (n : Nat) (b : Bool) :
    t.findNextPendingNonce k n b = t'.findNextPendingNonce k n b := by
  unfold PartState.findNextPendingNonce
  rw [hn]
  exact findNextPendingNonceAux_congr hr hb hs k b _ _

instance (s : PartState) (k : String) (b : Bool) (m : Nat) :
    Decidable (s.hitAt k b m) := by
  unfold PartState.hitAt
  infer_instance

/-- The loop condition of `findNextPendingNonceAux` is `hitAt`. -/
theorem findNextPendingNonceAux_succ (t : PartState) (k : String) (b : Bool)
    (j f : Nat) :
    findNextPendingNonceAux t k b j (f + 1) =
      if t.hitAt k b j then j
      else findNextPendingNonceAux t k b (j + 1) f := by
  simp only [findNextPendingNonceAux, PartState.hitAt, lookupMap_apply]

/-- Scan specification of `findNextPendingNonceAux`: starting at `j ≥ 1` with
`fuel` steps it returns 0 when no position in `[j, j + fuel)` hits, and
otherwise the least hitting position. -/
theorem findNextPendingNonceAux_spec (t : PartState) (k : String) (b : Bool) :
    ∀ fuel j, 1 ≤ j →
      (findNextPendingNonceAux t k b j fuel = 0 ∧
        ∀ m, j ≤ m → m < j + fuel → ¬ t.hitAt k b m) ∨
      (findNextPendingNonceAux t k b j fuel ≠ 0 ∧
        t.hitAt k b (findNextPendingNonceAux t k b j fuel) ∧
        j ≤ findNextPendingNonceAux t k b j fuel ∧
        findNextPendingNonceAux t k b j fuel < j + fuel ∧
        ∀ m, j ≤ m → m < findNextPendingNonceAux t k b j fuel →
          ¬ t.hitAt k b m) := by
  intro fuel
  induction fuel with
  | zero =>
    intro j hj
    left
    exact ⟨rfl, fun m h1 h2 => absurd (Nat.lt_of_le_of_lt h1 h2)
      (by omega)⟩
  | succ f ih =>
    intro j hj
    by_cases hhit : t.hitAt k b j
    · right
      rw [findNextPendingNonceAux_succ, if_pos hhit]
      refine ⟨by omega, hhit, Nat.le_refl j, by omega, ?_⟩
      intro m h1 h2
      omega
    · rw [findNextPendingNonceAux_succ, if_neg hhit]
      rcases ih (j + 1) (by omega) with ⟨h0, hnone⟩ | ⟨h0, hh, hle, hlt, hmin⟩
      · left
        refine ⟨h0, ?_⟩
        intro m h1 h2
        by_cases hm : m = j
        · subst hm; exact hhit
        · exact hnone m (by omega) (by omega)
      · right
        refine ⟨h0, hh, by omega, by omega, ?_⟩
        intro m h1 h2
        by_cases hm : m = j
        · subst hm; exact hhit
        · exact hmin m (by omega) h2

/-- Bridge: under map soundness / completeness hypotheses for key `k`, a hit
at nonce `m` is exactly a pending request with nonce `m`. -/
theorem hitAt_iff_pending (t : PartState) (k : String) (b : Bool) (m : Nat)
    (hsound : ∀ m', t.lookupMap b k m' ≠ B32.zero →
      (t.requests (t.lookupMap b k m')).nonce = m' ∧
      (t.requests (t.lookupMap b k m')).keyOf b = k)
    (hreq : ∀ id, t.pendingOn b k id →
      t.lookupMap b k ((t.requests id).nonce) = id)
    (hzero : (t.requests B32.zero).state ≠ RequestState.Sent) :
    t.hitAt k b m ↔ ∃ id, t.pendingOn b k id ∧ (t.requests id).nonce = m := by
  constructor
  · rintro ⟨hne, hst⟩
    obtain ⟨hnonce, hkey⟩ := hsound m hne
    exact ⟨t.lookupMap b k m, ⟨hst, hkey⟩, hnonce⟩
  · rintro ⟨id, hpend, hnonce⟩
    have hid : t.lookupMap b k m = id := by
      rw [← hnonce]
      exact hreq id hpend
    constructor
    · rw [hid]
      intro hx
      rw [hx] at hpend
      exact hzero hpend.1
    · rw [hid]
      exact hpend.1

/-- Correctness of `_findNextPendingNonce` on a state whose maps are sound
for key `k` and all of whose pending requests on `k` have nonce in
`(n, t.nonce]`: the returned value is 0 exactly when no request on `k` is
pending, and otherwise the least pending nonce. -/
theorem findNextPendingNonce_spec (t : PartState) (k : String) (b : Bool)
    (n : Nat)
    (hsound : ∀ m', t.lookupMap b k m' ≠ B32.zero →
      (t.requests (t.lookupMap b k m')).nonce = m' ∧
      (t.requests (t.lookupMap b k m')).keyOf b = k)
    (hreq : ∀ id, t.pendingOn b k id →
      t.lookupMap b k ((t.requests id).nonce) = id)
    (hzero : (t.requests B32.zero).state ≠ RequestState.Sent)
    (hle : ∀ id, t.pendingOn b k id → (t.requests id).nonce ≤ t.nonce)
    (hgt : ∀ id, t.pendingOn b k id → n < (t.requests id).nonce) :
    (t.findNextPendingNonce k n b = 0 → ∀ id, ¬ t.pendingOn b k id) ∧
    (t.findNextPendingNonce k n b ≠ 0 →
      ∃ id, t.pendingOn b k id ∧
        (t.requests id).nonce = t.findNextPendingNonce k n b) ∧
    (∀ id, t.pendingOn b k id →
      t.findNextPendingNonce k n b ≤ (t.requests id).nonce) := by
  have hrange : ∀ id, t.pendingOn b k id →
      n + 1 ≤ (t.requests id).nonce ∧
      (t.requests id).nonce < (n + 1) + (t.nonce - n) := by
    intro id hp
    have h1 := hle id hp
    have h2 := hgt id hp
    omega
  have hdef : t.findNextPendingNonce k n b =
      findNextPendingNonceAux t k b (n + 1) (t.nonce - n) := rfl
  have hspec := findNextPendingNonceAux_spec t k b (t.nonce - n) (n + 1)
    (by omega)
  have hbridge := fun m => hitAt_iff_pending t k b m hsound hreq hzero
  rcases hspec with ⟨h0, hnone⟩ | ⟨h0, hh, hlo, hhi, hmin⟩
  · refine ⟨?_, ?_, ?_⟩
    · intro _ id hp
      obtain ⟨hr1, hr2⟩ := hrange id hp
      exact hnone _ hr1 hr2 ((hbridge _).mpr ⟨id, hp, rfl⟩)
    · intro hne
      rw [hdef] at hne
      exact absurd h0 hne
    · intro id hp
      rw [hdef, h0]
      omega
  · refine ⟨?_, ?_, ?_⟩
    · intro hz
      rw [hdef] at hz
      exact absurd hz h0
    · intro _
      obtain ⟨id, hp, hn⟩ := (hbridge _).mp hh
      refine ⟨id, hp, ?_⟩
      rw [hdef]
      exact hn
    · intro id hp
      obtain ⟨hr1, hr2⟩ := hrange id hp
      rw [hdef]
      by_contra hcon
      exact hmin _ hr1 (by omega) ((hbridge _).mpr ⟨id, hp, rfl⟩)

/-- The request record after a successful completion. -/
def completedRecord (r : Request) (nsl rd : String) : Request :=
  { r with
    state := RequestState.Completed,
    newStateLocation := nsl, returnData := rd }

/-- The intermediate state of `replyOffchainCall` right after the request
record is rewritten, before the index repair. -/
def PartState.markCompleted (s : PartState) (rid : B32) (nsl rd : String) :
    PartState :=
  { s with
    requests := upd s.requests rid (completedRecord (s.requests rid) nsl rd) }

theorem completedRecord_state (r : Request) (nsl rd : String) :
    (completedRecord r nsl rd).state = RequestState.Completed := rfl

theorem completedRecord_nonce (r : Request) (nsl rd : String) :
    (completedRecord r nsl rd).nonce = r.nonce := rfl

theorem completedRecord_keyOf (r : Request) (nsl rd : String) (b : Bool) :
    (completedRecord r nsl rd).keyOf b = r.keyOf b := by cases b <;> rfl

theorem markCompleted_requests (s : PartState) (rid : B32)
    (nsl rd : String) :
    (s.markCompleted rid nsl rd).requests =
      upd s.requests rid (completedRecord (s.requests rid) nsl rd) := rfl

theorem markCompleted_nonce (s : PartState) (rid : B32) (nsl rd : String) :
    (s.markCompleted rid nsl rd).nonce = s.nonce := rfl

theorem markCompleted_lookupMap (s : PartState) (rid : B32)
    (nsl rd : String) (b : Bool) :
    (s.markCompleted rid nsl rd).lookupMap b = s.lookupMap b := by
  cases b <;> rfl

theorem markCompleted_minOf (s : PartState) (rid : B32) (nsl rd : String)
    (b : Bool) :
    (s.markCompleted rid nsl rd).minOf b = s.minOf b := by
  cases b <;> rfl

theorem completeUpdate_requests (s : PartState) (rid : B32)
    (nsl rd : String) :
    (s.completeUpdate rid nsl rd).requests =
      (s.markCompleted rid nsl rd).requests := by
  unfold PartState.completeUpdate PartState.markCompleted
  dsimp only
  split <;> split <;> rfl

theorem completeUpdate_nonce (s : PartState) (rid : B32) (nsl rd : String) :
    (s.completeUpdate rid nsl rd).nonce = s.nonce := by
  unfold PartState.completeUpdate
  dsimp only
  split <;> split <;> rfl

theorem completeUpdate_bmap (s : PartState) (rid : B32) (nsl rd : String) :
    (s.completeUpdate rid nsl rd).bytecodeNonceToRequest =
      s.bytecodeNonceToRequest := by
  unfold PartState.completeUpdate
  dsimp only
  split <;> split <;> rfl

theorem completeUpdate_smap (s : PartState) (rid : B32) (nsl rd : String) :
    (s.completeUpdate rid nsl rd).stateNonceToRequest =
      s.stateNonceToRequest := by
  unfold PartState.completeUpdate
  dsimp only
  split <;> split <;> rfl

theorem completeUpdate_lookupMap (s : PartState) (rid : B32)
    (nsl rd : String) (b : Bool) :
    (s.completeUpdate rid nsl rd).lookupMap b = s.lookupMap b := by
  cases b <;>
    simp only [PartState.lookupMap, completeUpdate_bmap, completeUpdate_smap]

/-- Under the two guard equalities of a legal completion, each min-pending
index is repaired to the `_findNextPendingNonce` value computed on the state
with the request already marked `Completed`. -/
theorem completeUpdate_minOf (s : PartState) (rid : B32) (nsl rd : String)
    (hb : s.minPendingNonceBytecode (s.requests rid).bytecodeLocation =
      (s.requests rid).nonce)
    (hs : s.minPendingNonceState (s.requests rid).currentStateLocation =
      (s.requests rid).nonce) (b : Bool) :
    (s.completeUpdate rid nsl rd).minOf b =
      upd (s.minOf b) ((s.requests rid).keyOf b)
        ((s.markCompleted rid nsl rd).findNextPendingNonce
          ((s.requests rid).keyOf b) (s.requests rid).nonce b) := by
  cases b
  · show (s.completeUpdate rid nsl rd).minPendingNonceState =
      upd s.minPendingNonceState (s.requests rid).currentStateLocation
        ((s.markCompleted rid nsl rd).findNextPendingNonce
          (s.requests rid).currentStateLocation (s.requests rid).nonce false)
    unfold PartState.completeUpdate
    dsimp only
    rw [if_pos hb]
    dsimp only
    rw [if_pos hs]
    dsimp only
    refine congrArg
      (upd s.minPendingNonceState (s.requests rid).currentStateLocation) ?_
    apply findNextPendingNonce_congr <;> rfl
  · show (s.completeUpdate rid nsl rd).minPendingNonceBytecode =
      upd s.minPendingNonceBytecode (s.requests rid).bytecodeLocation
        ((s.markCompleted rid nsl rd).findNextPendingNonce
          (s.requests rid).bytecodeLocation (s.requests rid).nonce true)
    unfold PartState.completeUpdate
    dsimp only
    rw [if_pos hb]
    dsimp only
    rw [if_pos hs]
    dsimp only
    refine congrArg
      (upd s.minPendingNonceBytecode (s.requests rid).bytecodeLocation) ?_
    apply findNextPendingNonce_congr <;> rfl

theorem pendingOn_markCompleted {s : PartState} {rid : B32}
    {nsl rd : String} (hSent : (s.requests rid).state = RequestState.Sent)
    (b : Bool) (k : String) (id : B32) :
    (s.markCompleted rid nsl rd).pendingOn b k id ↔
      id ≠ rid ∧ s.pendingOn b k id := by
  unfold PartState.pendingOn
  rw [markCompleted_requests]
  constructor
  · rintro ⟨h1, h2⟩
    by_cases he : id = rid
    · subst he
      rw [upd_same, completedRecord_state] at h1
      exact absurd h1 (by intro hx; exact RequestState.noConfusion hx)
    · rw [upd_other _ _ he] at h1 h2
      exact ⟨he, h1, h2⟩
  · rintro ⟨hne, h1, h2⟩
    rw [upd_other _ _ hne]
    exact ⟨h1, h2⟩

/-- A successful completion preserves the Partitioned invariant. -/
theorem partInv_complete {s : PartState} (hI : PartInv s) {rid : B32}
    (nsl rd : String)
    (hSent : (s.requests rid).state = RequestState.Sent)
    (hgB : ¬ (s.minPendingNonceBytecode (s.requests rid).bytecodeLocation ≠ 0
      ∧ s.minPendingNonceBytecode (s.requests rid).bytecodeLocation <
        (s.requests rid).nonce))
    (hgS : ¬ (s.minPendingNonceState (s.requests rid).currentStateLocation ≠ 0
      ∧ s.minPendingNonceState (s.requests rid).currentStateLocation <
        (s.requests rid).nonce)) :
    PartInv (s.completeUpdate rid nsl rd) := by
  have hpend : ∀ b, s.pendingOn b ((s.requests rid).keyOf b) rid :=
    fun b => ⟨hSent, rfl⟩
  have hridz : rid ≠ B32.zero := by
    intro hx
    rw [hx, hI.zero_none] at hSent
    exact RequestState.noConfusion hSent
  have hguard : ∀ b, ¬ (s.minOf b ((s.requests rid).keyOf b) ≠ 0 ∧
      s.minOf b ((s.requests rid).keyOf b) < (s.requests rid).nonce) := by
    intro b
    cases b
    · exact hgS
    · exact hgB
  have hmin_eq : ∀ b,
      s.minOf b ((s.requests rid).keyOf b) = (s.requests rid).nonce := by
    intro b
    have h1 : s.minOf b ((s.requests rid).keyOf b) ≠ 0 := by
      intro h0
      exact hI.min_zero b _ h0 rid (hpend b)
    have h2 := hI.min_le b _ rid (hpend b)
    have h4 : ¬ (s.minOf b ((s.requests rid).keyOf b) <
        (s.requests rid).nonce) := fun hlt => hguard b ⟨h1, hlt⟩
    omega
  -- uniqueness of the completed nonce on each of its keys
  have huniq : ∀ b id, s.pendingOn b ((s.requests rid).keyOf b) id →
      (s.requests id).nonce = (s.requests rid).nonce → id = rid := by
    intro b id hp hn
    have h1 := hI.map_req b id (sent_ne_none hp.1)
    have h2 := hI.map_req b rid (sent_ne_none hSent)
    rw [hp.2] at h1
    rw [hn] at h1
    exact h1.symm.trans h2
  -- `_findNextPendingNonce` specification on the marked state, per key kind
  have hspec : ∀ b,
      ((s.markCompleted rid nsl rd).findNextPendingNonce
          ((s.requests rid).keyOf b) (s.requests rid).nonce b = 0 →
        ∀ id, ¬ (s.markCompleted rid nsl rd).pendingOn b
          ((s.requests rid).keyOf b) id) ∧
      ((s.markCompleted rid nsl rd).findNextPendingNonce
          ((s.requests rid).keyOf b) (s.requests rid).nonce b ≠ 0 →
        ∃ id, (s.markCompleted rid nsl rd).pendingOn b
            ((s.requests rid).keyOf b) id ∧
          ((s.markCompleted rid nsl rd).requests id).nonce =
            (s.markCompleted rid nsl rd).findNextPendingNonce
              ((s.requests rid).keyOf b) (s.requests rid).nonce b) ∧
      (∀ id, (s.markCompleted rid nsl rd).pendingOn b
          ((s.requests rid).keyOf b) id →
        (s.markCompleted rid nsl rd).findNextPendingNonce
            ((s.requests rid).keyOf b) (s.requests rid).nonce b ≤
          ((s.markCompleted rid nsl rd).requests id).nonce) := by
    intro b
    apply findNextPendingNonce_spec
    · -- map soundness on the marked state
      intro m' hne
      rw [markCompleted_lookupMap] at hne ⊢
      have hold := hI.map_sound b ((s.requests rid).keyOf b) m' hne
      rw [markCompleted_requests]
      by_cases he : s.lookupMap b ((s.requests rid).keyOf b) m' = rid
      · rw [he, upd_same, completedRecord_nonce, completedRecord_keyOf]
        rw [he] at hold
        exact ⟨hold.2.1, hold.2.2⟩
      · rw [upd_other _ _ he]
        exact ⟨hold.2.1, hold.2.2⟩
    · -- map completeness for pending requests on the marked state
      intro id hp
      rw [(pendingOn_markCompleted hSent _ _ _)] at hp
      obtain ⟨hne, hps⟩ := hp
      rw [markCompleted_lookupMap, markCompleted_requests,
        upd_other _ _ hne]
      have h1 := hI.map_req b id (sent_ne_none hps.1)
      rw [hps.2] at h1
      exact h1
    · -- the zero id is never pending
      rw [markCompleted_requests,
        upd_other _ _ (fun hx => hridz hx.symm)]
      rw [hI.zero_none]
      intro hx
      exact RequestState.noConfusion hx
    · -- pending nonces are bounded by the counter
      intro id hp
      rw [(pendingOn_markCompleted hSent _ _ _)] at hp
      obtain ⟨hne, hps⟩ := hp
      rw [markCompleted_requests, upd_other _ _ hne, markCompleted_nonce]
      exact hI.nonce_le id (sent_ne_none hps.1)
    · -- every remaining pending nonce is strictly above the completed one
      intro id hp
      rw [(pendingOn_markCompleted hSent _ _ _)] at hp
      obtain ⟨hne, hps⟩ := hp
      rw [markCompleted_requests, upd_other _ _ hne]
      have h1 := hI.min_le b _ id hps
      rw [hmin_eq b] at h1
      rcases Nat.lt_or_ge (s.requests rid).nonce (s.requests id).nonce with
        h | h
      · exact h
      · have : (s.requests id).nonce = (s.requests rid).nonce := by omega
        exact absurd (huniq b id hps this) hne
  have hpend3 : ∀ b k id, (s.completeUpdate rid nsl rd).pendingOn b k id ↔
      (s.markCompleted rid nsl rd).pendingOn b k id := by
    intro b k id
    unfold PartState.pendingOn
    rw [completeUpdate_requests]
  have hminOf := completeUpdate_minOf s rid nsl rd (hmin_eq true)
    (hmin_eq false)
  refine ⟨?_, ?_, ?_, ?_, ?_, ?_, ?_, ?_, ?_⟩
  · -- hash_nonce
    intro bn' snd' n' h
    rw [completeUpdate_requests, markCompleted_requests] at h ⊢
    by_cases he : B32.hash bn' snd' n' = rid
    · rw [he, upd_same, completedRecord_nonce]
      have hold := hI.hash_nonce bn' snd' n'
        (by rw [he]; exact sent_ne_none hSent)
      rw [he] at hold
      exact hold
    · rw [upd_other _ _ he] at h ⊢
      exact hI.hash_nonce bn' snd' n' h
  · -- zero_none
    rw [completeUpdate_requests, markCompleted_requests,
      upd_other _ _ (fun hx => hridz hx.symm)]
    exact hI.zero_none
  · -- nonce_pos
    intro id h
    rw [completeUpdate_requests, markCompleted_requests] at h ⊢
    by_cases he : id = rid
    · rw [he, upd_same, completedRecord_nonce]
      exact hI.nonce_pos rid (sent_ne_none hSent)
    · rw [upd_other _ _ he] at h ⊢
      exact hI.nonce_pos id h
  · -- nonce_le
    intro id h
    rw [completeUpdate_requests, markCompleted_requests] at h ⊢
    rw [completeUpdate_nonce]
    by_cases he : id = rid
    · rw [he, upd_same, completedRecord_nonce]
      exact hI.nonce_le rid (sent_ne_none hSent)
    · rw [upd_other _ _ he] at h ⊢
      exact hI.nonce_le id h
  · -- map_req
    intro b id h
    rw [completeUpdate_requests, markCompleted_requests] at h ⊢
    rw [completeUpdate_lookupMap]
    by_cases he : id = rid
    · rw [he, upd_same, completedRecord_nonce, completedRecord_keyOf]
      exact hI.map_req b rid (sent_ne_none hSent)
    · rw [upd_other _ _ he] at h ⊢
      exact hI.map_req b id h
  · -- map_sound
    intro b k m hne
    rw [completeUpdate_lookupMap] at hne ⊢
    rw [completeUpdate_requests, markCompleted_requests]
    have hold := hI.map_sound b k m hne
    by_cases he : s.lookupMap b k m = rid
    · rw [he, upd_same, completedRecord_nonce, completedRecord_keyOf,
        completedRecord_state]
      rw [he] at hold
      exact ⟨by intro hx; exact RequestState.noConfusion hx,
        hold.2.1, hold.2.2⟩
    · rw [upd_other _ _ he]
      exact hold
  · -- min_zero
    intro b k h0 id hp
    rw [hminOf b] at h0
    rw [hpend3 b k id] at hp
    by_cases hk : k = (s.requests rid).keyOf b
    · subst hk
      rw [upd_same] at h0
      exact (hspec b).1 h0 id hp
    · rw [upd_other _ _ hk] at h0
      rw [(pendingOn_markCompleted hSent _ _ _)] at hp
      exact hI.min_zero b k h0 id hp.2
  · -- min_mem
    intro b k h0
    rw [hminOf b] at h0 ⊢
    by_cases hk : k = (s.requests rid).keyOf b
    · subst hk
      rw [upd_same] at h0 ⊢
      obtain ⟨id, hp, hn⟩ := (hspec b).2.1 h0
      refine ⟨id, ?_, ?_⟩
      · rw [hpend3]
        exact hp
      · rw [completeUpdate_requests]
        exact hn
    · rw [upd_other _ _ hk] at h0 ⊢
      obtain ⟨id, hp, hn⟩ := hI.min_mem b k h0
      have hne : id ≠ rid := by
        intro hx
        subst hx
        exact hk hp.2.symm
      refine ⟨id, ?_, ?_⟩
      · rw [hpend3, (pendingOn_markCompleted hSent _ _ _)]
        exact ⟨hne, hp⟩
      · rw [completeUpdate_requests, markCompleted_requests,
          upd_other _ _ hne]
        exact hn
  · -- min_le
    intro b k id hp
    rw [hminOf b]
    rw [hpend3 b k id] at hp
    rw [completeUpdate_requests]
    by_cases hk : k = (s.requests rid).keyOf b
    · subst hk
      rw [upd_same]
      exact (hspec b).2.2 id hp
    · rw [upd_other _ _ hk]
      rw [(pendingOn_markCompleted hSent _ _ _)] at hp
      obtain ⟨hne, hps⟩ := hp
      rw [markCompleted_requests, upd_other _ _ hne]
      exact hI.min_le b k id hps

theorem sendOffchainCall_ok_inv {s s' : PartState} {id : B32}
    {bn snd : Nat} {c bl csl : String}
    (h : s.sendOffchainCall bn snd c bl csl = Except.ok (s', id)) :
    s.whitelist snd = true ∧ s' = (s.sendBody bn snd c bl csl).1 ∧
      id = (s.sendBody bn snd c bl csl).2 := by
  unfold PartState.sendOffchainCall at h
  split at h
  · exact Except.noConfusion h
  · rename_i hw
    have hw' : s.whitelist snd = true := by
      cases hx : s.whitelist snd
      · exact absurd hx hw
      · rfl
    injection h with h1
    exact ⟨hw', (congrArg Prod.fst h1).symm, (congrArg Prod.snd h1).symm⟩

theorem replyOffchainCall_ok_inv {s s' : PartState} {snd : Nat} {rid : B32}
    {nsl rd : String}
    (h : s.replyOffchainCall snd rid nsl rd = Except.ok s') :
    s.whitelist snd = true ∧
    (s.requests rid).state = RequestState.Sent ∧
    ¬ (s.minPendingNonceBytecode (s.requests rid).bytecodeLocation ≠ 0 ∧
      s.minPendingNonceBytecode (s.requests rid).bytecodeLocation <
        (s.requests rid).nonce) ∧
    ¬ (s.minPendingNonceState (s.requests rid).currentStateLocation ≠ 0 ∧
      s.minPendingNonceState (s.requests rid).currentStateLocation <
        (s.requests rid).nonce) ∧
    s' = s.completeUpdate rid nsl rd := by
  simp only [PartState.replyOffchainCall, PartState.replyBody] at h
  split at h
  · exact Except.noConfusion h
  · rename_i hw
    have hw' : s.whitelist snd = true := by
      cases hx : s.whitelist snd
      · exact absurd hx hw
      · rfl
    split at h
    · exact Except.noConfusion h
    · rename_i hstate
      split at h
      · exact Except.noConfusion h
      · rename_i hgB
        split at h
        · exact Except.noConfusion h
        · rename_i hgS
          injection h with h1
          exact ⟨hw', not_not.mp hstate, hgB, hgS, h1.symm⟩

/-- Every reachable state of the Partitioned coordinator satisfies the
invariant. -/
theorem partReach_inv {s : PartState} (h : PartReach s) : PartInv s := by
  induction h with
  | init w => exact partInv_init w
  | send bn snd c bl csl hr hok ih =>
    obtain ⟨hw, hs', hid⟩ := sendOffchainCall_ok_inv hok
    subst hs'
    exact partInv_sendBody ih bn snd c bl csl
  | reply snd rid nsl rd hr hok ih =>
    obtain ⟨hw, hstate, hgB, hgS, hs'⟩ := replyOffchainCall_ok_inv hok
    subst hs'
    exact partInv_complete ih nsl rd hstate hgB hgS
  | setWhitelist w hr ih =>
    exact ⟨ih.hash_nonce, ih.zero_none, ih.nonce_pos, ih.nonce_le,
      ih.map_req, ih.map_sound, ih.min_zero, ih.min_mem, ih.min_le⟩

/-- `replyOffchainCall` on a whitelisted caller and a `Sent` request reduces
to the two min-pending guards followed by the completion updates. -/
theorem replyOffchainCall_sent {s : PartState} {sender : Nat} {rid : B32}
    (nsl rd : String) (hw : s.whitelist sender = true)
    (hSent : (s.requests rid).state = RequestState.Sent) :
    s.replyOffchainCall sender rid nsl rd =
      if s.minPendingNonceBytecode (s.requests rid).bytecodeLocation ≠ 0 ∧
          s.minPendingNonceBytecode (s.requests rid).bytecodeLocation <
            (s.requests rid).nonce then
        Except.error SolError.earlierBytecodePending
      else if s.minPendingNonceState
            (s.requests rid).currentStateLocation ≠ 0 ∧
          s.minPendingNonceState (s.requests rid).currentStateLocation <
            (s.requests rid).nonce then
        Except.error SolError.earlierStatePending
      else Except.ok (s.completeUpdate rid nsl rd) := by
  unfold PartState.replyOffchainCall
  rw [if_neg (by intro hx; rw [hw] at hx; exact Bool.noConfusion hx)]
  simp only [PartState.replyBody]
  rw [if_neg (fun hx => hx hSent)]

/-- `canProcessRequest` on a `Sent` request reduces to the two min-pending
guards with their blocking-id reports. -/
theorem canProcessRequest_sent {s : PartState} {rid : B32}
    (hSent : (s.requests rid).state = RequestState.Sent) :
    s.canProcessRequest rid =
      if s.minPendingNonceBytecode (s.requests rid).bytecodeLocation ≠ 0 ∧
          s.minPendingNonceBytecode (s.requests rid).bytecodeLocation <
            (s.requests rid).nonce then
        Except.ok (false, s.bytecodeNonceToRequest
          (s.requests rid).bytecodeLocation
          (s.minPendingNonceBytecode (s.requests rid).bytecodeLocation))
      else if s.minPendingNonceState
            (s.requests rid).currentStateLocation ≠ 0 ∧
          s.minPendingNonceState (s.requests rid).currentStateLocation <
            (s.requests rid).nonce then
        Except.ok (false, s.stateNonceToRequest
          (s.requests rid).currentStateLocation
          (s.minPendingNonceState (s.requests rid).currentStateLocation))
      else Except.ok (true, B32.zero) := by
  simp only [PartState.canProcessRequest]
  rw [if_neg (sent_ne_none hSent),
    if_neg (by rw [hSent]; intro hx; exact RequestState.noConfusion hx)]

theorem lookupMap_true (s : PartState) :
    s.lookupMap true = s.bytecodeNonceToRequest := rfl

theorem lookupMap_false (s : PartState) :
    s.lookupMap false = s.stateNonceToRequest := rfl

theorem minOf_true (s : PartState) :
    s.minOf true = s.minPendingNonceBytecode := rfl

theorem minOf_false (s : PartState) :
    s.minOf false = s.minPendingNonceState := rfl

theorem keyOf_true (r : Request) : r.keyOf true = r.bytecodeLocation := rfl

theorem keyOf_false (r : Request) :
    r.keyOf false = r.currentStateLocation := rfl

/-- C2: In the Partitioned coordinator variant, after any sequence of
`sendOffchainCall` and successful `replyOffchainCall` operations starting
from the initial state, for every location key `k` the index
`_minPendingNonceBytecode[k]` (and likewise `_minPendingNonceState[k]`) is
either the sentinel 0 or equal to the true minimum nonce among all requests
keyed by `k` whose state is `Sent`; in particular it never exceeds the nonce
of any still-`Sent` request keyed by `k`. -/
theorem partitioned_minPending_invariant {s : PartState} (h : PartReach s) :
    ∀ k : String,
      (s.minPendingNonceBytecode k = 0 ∨
        ((∃ id, (s.requests id).state = RequestState.Sent ∧
            (s.requests id).bytecodeLocation = k ∧
            (s.requests id).nonce = s.minPendingNonceBytecode k) ∧
          ∀ id, (s.requests id).state = RequestState.Sent →
            (s.requests id).bytecodeLocation = k →
            s.minPendingNonceBytecode k ≤ (s.requests id).nonce)) ∧
      (s.minPendingNonceState k = 0 ∨
        ((∃ id, (s.requests id).state = RequestState.Sent ∧
            (s.requests id).currentStateLocation = k ∧
            (s.requests id).nonce = s.minPendingNonceState k) ∧
          ∀ id, (s.requests id).state = RequestState.Sent →
            (s.requests id).currentStateLocation = k →
            s.minPendingNonceState k ≤ (s.requests id).nonce)) ∧
      (∀ id, (s.requests id).state = RequestState.Sent →
        (s.requests id).bytecodeLocation = k →
        s.minPendingNonceBytecode k ≤ (s.requests id).nonce) ∧
      (∀ id, (s.requests id).state = RequestState.Sent →
        (s.requests id).currentStateLocation = k →
        s.minPendingNonceState k ≤ (s.requests id).nonce) := by
  intro k
  have hI := partReach_inv h
  have hleB : ∀ id, (s.requests id).state = RequestState.Sent →
      (s.requests id).bytecodeLocation = k →
      s.minPendingNonceBytecode k ≤ (s.requests id).nonce := by
    intro id h1 h2
    have := hI.min_le true k id ⟨h1, by rw [keyOf_true]; exact h2⟩
    rw [minOf_true] at this
    exact this
  have hleS : ∀ id, (s.requests id).state = RequestState.Sent →
      (s.requests id).currentStateLocation = k →
      s.minPendingNonceState k ≤ (s.requests id).nonce := by
    intro id h1 h2
    have := hI.min_le false k id ⟨h1, by rw [keyOf_false]; exact h2⟩
    rw [minOf_false] at this
    exact this
  refine ⟨?_, ?_, hleB, hleS⟩
  · by_cases h0 : s.minPendingNonceBytecode k = 0
    · exact Or.inl h0
    · right
      obtain ⟨id0, ⟨hp1, hp2⟩, hn0⟩ := hI.min_mem true k
        (by rw [minOf_true]; exact h0)
      rw [keyOf_true] at hp2
      rw [minOf_true] at hn0
      exact ⟨⟨id0, hp1, hp2, hn0⟩, hleB⟩
  · by_cases h0 : s.minPendingNonceState k = 0
    · exact Or.inl h0
    · right
      obtain ⟨id0, ⟨hp1, hp2⟩, hn0⟩ := hI.min_mem false k
        (by rw [minOf_false]; exact h0)
      rw [keyOf_false] at hp2
      rw [minOf_false] at hn0
      exact ⟨⟨id0, hp1, hp2, hn0⟩, hleS⟩

/-- Witness for C2: in the concrete reachable state `pEx1` the request
`pId1` is `Sent` on bytecode key `"c1"` and the index does not exceed its
nonce. -/
theorem partitioned_minPending_invariant_witness :
    (pEx1.requests pId1).state = RequestState.Sent ∧
    pEx1.minPendingNonceBytecode "c1" ≤ (pEx1.requests pId1).nonce := by
  refine ⟨by decide, ?_⟩
  have hmain := partitioned_minPending_invariant pReach1 "c1"
  exact hmain.2.2.1 pId1 (by decide) (by decide)

/-- C1: In the Partitioned coordinator variant, a completion attempt
(`replyOffchainCall`) on a request in state `Sent` is admitted if and only
if, for both of its resource keys (`bytecodeLocation` and
`currentStateLocation`) independently, the tracked minimum pending nonce for
that key is the sentinel 0 or is `>=` the request's nonce; when violated the
call reverts with an earlier-request-pending error, and the read-only
`canProcessRequest` query returns `false` together with the request id of
the earliest still-pending request on the violated key (the bytecode key
being checked first). -/
theorem partitioned_completion_admission {s : PartState} (h : PartReach s)
    (sender : Nat) (rid : B32) (nsl rd : String)
    (hw : s.whitelist sender = true)
    (hSent : (s.requests rid).state = RequestState.Sent) :
    ((∃ s', s.replyOffchainCall sender rid nsl rd = Except.ok s') ↔
      ((s.minPendingNonceBytecode (s.requests rid).bytecodeLocation = 0 ∨
          (s.requests rid).nonce ≤
            s.minPendingNonceBytecode (s.requests rid).bytecodeLocation) ∧
        (s.minPendingNonceState (s.requests rid).currentStateLocation = 0 ∨
          (s.requests rid).nonce ≤
            s.minPendingNonceState (s.requests rid).currentStateLocation))) ∧
    (s.minPendingNonceBytecode (s.requests rid).bytecodeLocation ≠ 0 ∧
        s.minPendingNonceBytecode (s.requests rid).bytecodeLocation <
          (s.requests rid).nonce →
      s.replyOffchainCall sender rid nsl rd =
          Except.error SolError.earlierBytecodePending ∧
        ∃ bid, s.canProcessRequest rid = Except.ok (false, bid) ∧
          (s.requests bid).state = RequestState.Sent ∧
          (s.requests bid).bytecodeLocation =
            (s.requests rid).bytecodeLocation ∧
          ∀ id, (s.requests id).state = RequestState.Sent →
            (s.requests id).bytecodeLocation =
              (s.requests rid).bytecodeLocation →
            (s.requests bid).nonce ≤ (s.requests id).nonce) ∧
    (¬ (s.minPendingNonceBytecode (s.requests rid).bytecodeLocation ≠ 0 ∧
        s.minPendingNonceBytecode (s.requests rid).bytecodeLocation <
          (s.requests rid).nonce) →
      s.minPendingNonceState (s.requests rid).currentStateLocation ≠ 0 ∧
        s.minPendingNonceState (s.requests rid).currentStateLocation <
          (s.requests rid).nonce →
      s.replyOffchainCall sender rid nsl rd =
          Except.error SolError.earlierStatePending ∧
        ∃ bid, s.canProcessRequest rid = Except.ok (false, bid) ∧
          (s.requests bid).state = RequestState.Sent ∧
          (s.requests bid).currentStateLocation =
            (s.requests rid).currentStateLocation ∧
          ∀ id, (s.requests id).state = RequestState.Sent →
            (s.requests id).currentStateLocation =
              (s.requests rid).currentStateLocation →
            (s.requests bid).nonce ≤ (s.requests id).nonce) := by
  have hI := partReach_inv h
  have hrepl := replyOffchainCall_sent nsl rd hw hSent
  have hcan := canProcessRequest_sent hSent
  refine ⟨?_, ?_, ?_⟩
  · constructor
    · rintro ⟨s', heq⟩
      rw [hrepl] at heq
      by_cases hgB : s.minPendingNonceBytecode
          (s.requests rid).bytecodeLocation ≠ 0 ∧
          s.minPendingNonceBytecode (s.requests rid).bytecodeLocation <
            (s.requests rid).nonce
      · rw [if_pos hgB] at heq
        exact Except.noConfusion heq
      · rw [if_neg hgB] at heq
        by_cases hgS : s.minPendingNonceState
            (s.requests rid).currentStateLocation ≠ 0 ∧
            s.minPendingNonceState (s.requests rid).currentStateLocation <
              (s.requests rid).nonce
        · rw [if_pos hgS] at heq
          exact Except.noConfusion heq
        · exact ⟨by omega, by omega⟩
    · rintro ⟨h1, h2⟩
      rw [hrepl, if_neg (by omega), if_neg (by omega)]
      exact ⟨_, rfl⟩
  · intro hv
    refine ⟨by rw [hrepl, if_pos hv], ?_⟩
    rw [hcan, if_pos hv]
    obtain ⟨id0, ⟨hp1, hp2⟩, hn0⟩ := hI.min_mem true
      (s.requests rid).bytecodeLocation (by rw [minOf_true]; exact hv.1)
    rw [keyOf_true] at hp2
    rw [minOf_true] at hn0
    have hmap := hI.map_req true id0 (sent_ne_none hp1)
    rw [lookupMap_true, keyOf_true, hp2, hn0] at hmap
    refine ⟨id0, by rw [hmap], hp1, hp2, ?_⟩
    intro id h1 h2
    have := hI.min_le true (s.requests rid).bytecodeLocation id
      ⟨h1, by rw [keyOf_true]; exact h2⟩
    rw [minOf_true] at this
    omega
  · intro hnB hv
    refine ⟨by rw [hrepl, if_neg hnB, if_pos hv], ?_⟩
    rw [hcan, if_neg hnB, if_pos hv]
    obtain ⟨id0, ⟨hp1, hp2⟩, hn0⟩ := hI.min_mem false
      (s.requests rid).currentStateLocation (by rw [minOf_false]; exact hv.1)
    rw [keyOf_false] at hp2
    rw [minOf_false] at hn0
    have hmap := hI.map_req false id0 (sent_ne_none hp1)
    rw [lookupMap_false, keyOf_false, hp2, hn0] at hmap
    refine ⟨id0, by rw [hmap], hp1, hp2, ?_⟩
    intro id h1 h2
    have := hI.min_le false (s.requests rid).currentStateLocation id
      ⟨h1, by rw [keyOf_false]; exact h2⟩
    rw [minOf_false] at this
    omega

/-- Witness for C1: in the concrete reachable state `pEx2` (two requests on
the same keys) the second request is blocked: `replyOffchainCall` reverts
with the earlier-request-pending error and `canProcessRequest` reports the
first request as blocking; after completing the first (state `pEx1c`
analogue), the admission condition is satisfiable. -/
theorem partitioned_completion_admission_witness :
    pEx2.whitelist 1 = true ∧
    (pEx2.requests pId2).state = RequestState.Sent ∧
    pEx2.replyOffchainCall 1 pId2 "ns" "rd" =
      Except.error SolError.earlierBytecodePending ∧
    (∃ bid, pEx2.canProcessRequest pId2 = Except.ok (false, bid)) := by
  refine ⟨rfl, by decide, ?_⟩
  have hmain := partitioned_completion_admission pReach2 1 pId2 "ns" "rd"
    rfl (by decide)
  have hblock := hmain.2.1 (by decide)
  obtain ⟨h1, bid, h2, h3⟩ := hblock
  exact ⟨h1, bid, h2⟩

/-- C10: In the Partitioned coordinator variant, `canProcessRequest` reverts
for every request id whose stored state is `None` (the request must exist),
and for every request id whose state is already `Completed` it returns
`(true, bytes32(0))`.  The statement quantifies over arbitrary states (in
particular arbitrary contents of the two min-pending indices), so the
`Completed` answer is independent of them: the indices are not consulted. -/
theorem canProcessRequest_none_completed :
    (∀ (s : PartState) (rid : B32),
      (s.requests rid).state = RequestState.None →
      s.canProcessRequest rid = Except.error SolError.requestDoesNotExist) ∧
    (∀ (s : PartState) (rid : B32),
      (s.requests rid).state = RequestState.Completed →
      s.canProcessRequest rid = Except.ok (true, B32.zero)) := by
  constructor
  · intro s rid h
    simp only [PartState.canProcessRequest]
    rw [if_pos h]
  · intro s rid h
    simp only [PartState.canProcessRequest]
    rw [if_neg (by rw [h]; intro hx; exact RequestState.noConfusion hx),
      if_pos h]

/-- Witness for C10: concrete `None` (fresh deployment) and `Completed`
(state `pEx1c`) requests. -/
theorem canProcessRequest_none_completed_witness :
    (pEx0.requests pId1).state = RequestState.None ∧
    pEx0.canProcessRequest pId1 =
      Except.error SolError.requestDoesNotExist ∧
    (pEx1c.requests pId1).state = RequestState.Completed ∧
    pEx1c.canProcessRequest pId1 = Except.ok (true, B32.zero) := by
  refine ⟨by decide, ?_, by decide, ?_⟩
  · exact canProcessRequest_none_completed.1 pEx0 pId1 (by decide)
  · exact canProcessRequest_none_completed.2 pEx1c pId1 (by decide)

/-!
## Invariant of the Global FIFO coordinator

The queue segment `[head, tail)` holds exactly the `Sent` requests, in
strictly increasing nonce order.
-/

/-- Inductive invariant of the Global FIFO coordinator. -/
structure GFInv (s : GFState) : Prop where
  ht : s.globalQueue.head ≤ s.globalQueue.tail
  hash_nonce : ∀ bn snd n,
    (s.requests (B32.hash bn snd n)).state ≠ RequestState.None →
    (s.requests (B32.hash bn snd n)).nonce = n
  nonce_le : ∀ id, (s.requests id).state ≠ RequestState.None →
    (s.requests id).nonce ≤ s.nonce
  ent_sent : ∀ i, s.globalQueue.head ≤ i → i < s.globalQueue.tail →
    (s.requests (s.globalQueue.data i)).state = RequestState.Sent
  ent_mono : ∀ i j, s.globalQueue.head ≤ i → i < j →
    j < s.globalQueue.tail →
    (s.requests (s.globalQueue.data i)).nonce <
      (s.requests (s.globalQueue.data j)).nonce
  sent_mem : ∀ id, (s.requests id).state = RequestState.Sent →
    ∃ i, s.globalQueue.head ≤ i ∧ i < s.globalQueue.tail ∧
      s.globalQueue.data i = id

theorem gfInv_init (w : Nat → Bool) : GFInv (GFState.init w) := by
  refine ⟨Nat.le_refl 0, ?_, ?_, ?_, ?_, ?_⟩
  · intro bn snd n h
    exact absurd rfl h
  · intro id h
    exact absurd rfl h
  · intro i h1 h2
    exfalso
    have h0 : (GFState.init w).globalQueue.tail = 0 := rfl
    omega
  · intro i j h1 h2 h3
    exfalso
    have h0 : (GFState.init w).globalQueue.tail = 0 := rfl
    omega
  · intro id h
    exact absurd h (by intro hx; exact RequestState.noConfusion hx)

theorem gfSendBody_requests (s : GFState) (bn snd : Nat)
    (c bl csl : String) :
    (s.sendBody bn snd c bl csl).1.requests =
      upd s.requests (B32.hash bn snd (s.nonce + 1))
        (sentRecord bn snd (s.nonce + 1) c bl csl) := rfl

theorem gfSendBody_nonce (s : GFState) (bn snd : Nat) (c bl csl : String) :
    (s.sendBody bn snd c bl csl).1.nonce = s.nonce + 1 := rfl

theorem gfSendBody_queue (s : GFState) (bn snd : Nat) (c bl csl : String) :
    (s.sendBody bn snd c bl csl).1.globalQueue =
      FIFOBytes32.enqueue s.globalQueue
        (B32.hash bn snd (s.nonce + 1)) := rfl

theorem gfInv_sendBody {s : GFState} (hI : GFInv s) (bn snd : Nat)
    (c bl csl : String) : GFInv (s.sendBody bn snd c bl csl).1 := by
  have hfresh : (s.requests (B32.hash bn snd (s.nonce + 1))).state =
      RequestState.None := by
    by_contra h
    have h1 := hI.hash_nonce bn snd (s.nonce + 1) h
    have h2 := hI.nonce_le _ h
    omega
  have hne : ∀ i, s.globalQueue.head ≤ i → i < s.globalQueue.tail →
      s.globalQueue.data i ≠ B32.hash bn snd (s.nonce + 1) := by
    intro i h1 h2 hx
    have := hI.ent_sent i h1 h2
    rw [hx, hfresh] at this
    exact RequestState.noConfusion this
  refine ⟨?_, ?_, ?_, ?_, ?_, ?_⟩
  · rw [gfSendBody_queue]
    unfold FIFOBytes32.enqueue
    have := hI.ht
    dsimp only
    omega
  · intro bn' snd' n' h
    rw [gfSendBody_requests] at h ⊢
    by_cases he : B32.hash bn' snd' n' = B32.hash bn snd (s.nonce + 1)
    · injection he with e1 e2 e3
      subst e1; subst e2; subst e3
      rw [upd_same]
      rfl
    · rw [upd_other _ _ he] at h ⊢
      exact hI.hash_nonce bn' snd' n' h
  · intro id h
    rw [gfSendBody_requests] at h ⊢
    rw [gfSendBody_nonce]
    by_cases he : id = B32.hash bn snd (s.nonce + 1)
    · rw [he, upd_same, nonce_sentRecord]
    · rw [upd_other _ _ he] at h ⊢
      have := hI.nonce_le id h
      omega
  · intro i h1 h2
    rw [gfSendBody_queue] at h1 h2
    rw [gfSendBody_requests, gfSendBody_queue]
    unfold FIFOBytes32.enqueue at h1 h2 ⊢
    dsimp only at h1 h2 ⊢
    by_cases hi : i = s.globalQueue.tail
    · subst hi
      rw [upd_same, upd_same, state_sentRecord]
    · have hi' : i < s.globalQueue.tail := by omega
      rw [upd_other _ _ hi, upd_other _ _ (hne i h1 hi')]
      exact hI.ent_sent i h1 hi'
  · intro i j h1 h2 h3
    rw [gfSendBody_queue] at h1 h3
    rw [gfSendBody_requests, gfSendBody_queue]
    unfold FIFOBytes32.enqueue at h1 h3 ⊢
    dsimp only at h1 h3 ⊢
    have hij : i < s.globalQueue.tail := by omega
    rw [upd_other _ _ (by omega : i ≠ s.globalQueue.tail),
      upd_other _ _ (hne i h1 hij)]
    by_cases hj : j = s.globalQueue.tail
    · subst hj
      rw [upd_same, upd_same, nonce_sentRecord]
      have := hI.nonce_le (s.globalQueue.data i)
        (sent_ne_none (hI.ent_sent i h1 hij))
      omega
    · have hj' : j < s.globalQueue.tail := by omega
      rw [upd_other _ _ hj,
        upd_other _ _ (hne j (by omega) hj')]
      exact hI.ent_mono i j h1 h2 hj'
  · intro id h
    rw [gfSendBody_requests] at h
    rw [gfSendBody_queue]
    unfold FIFOBytes32.enqueue
    dsimp only
    by_cases he : id = B32.hash bn snd (s.nonce + 1)
    · subst he
      refine ⟨s.globalQueue.tail, hI.ht, by omega, ?_⟩
      rw [upd_same]
    · rw [upd_other _ _ he] at h
      obtain ⟨i, h1, h2, h3⟩ := hI.sent_mem id h
      refine ⟨i, h1, by omega, ?_⟩
      rw [upd_other _ _ (by omega : i ≠ s.globalQueue.tail)]
      exact h3

/-- `replyOffchainCall` of the Global FIFO variant on a whitelisted caller, a
`Sent` request and a non-empty queue reduces to the front check followed by
dequeue-and-complete. -/
theorem gfReplyBody_sent {s : GFState} {rid : B32} (nsl rd : String)
    (hSent : (s.requests rid).state = RequestState.Sent)
    (hq : ¬ s.globalQueue.head = s.globalQueue.tail) :
    s.replyBody rid nsl rd =
      if s.globalQueue.data s.globalQueue.head ≠ rid then
        Except.error (SolError.outOfOrder rid)
      else
        Except.ok
          { s with
            globalQueue :=
              { s.globalQueue with head := s.globalQueue.head + 1 },
            requests := upd s.requests rid
              { s.requests rid with state := RequestState.Completed } } := by
  unfold GFState.replyBody FIFOBytes32.peek FIFOBytes32.dequeue
  rw [if_neg (fun hx => hx hSent)]
  rw [if_neg hq]
  dsimp only
  rw [if_neg hq]

theorem gfReply_ok_inv {s s' : GFState} {snd : Nat} {rid : B32}
    {nsl rd : String}
    (h : s.replyOffchainCall snd rid nsl rd = Except.ok s') :
    s.whitelist snd = true ∧
    (s.requests rid).state = RequestState.Sent ∧
    ¬ s.globalQueue.head = s.globalQueue.tail ∧
    s.globalQueue.data s.globalQueue.head = rid ∧
    s' = { s with
      globalQueue := { s.globalQueue with head := s.globalQueue.head + 1 },
      requests := upd s.requests rid
        { s.requests rid with state := RequestState.Completed } } := by
  unfold GFState.replyOffchainCall at h
  split at h
  · exact Except.noConfusion h
  · rename_i hw
    have hw' : s.whitelist snd = true := by
      cases hx : s.whitelist snd
      · exact absurd hx hw
      · rfl
    by_cases hSent : (s.requests rid).state = RequestState.Sent
    case neg =>
      exfalso
      unfold GFState.replyBody at h
      rw [if_pos hSent] at h
      exact Except.noConfusion h
    by_cases hq : s.globalQueue.head = s.globalQueue.tail
    case pos =>
      exfalso
      unfold GFState.replyBody FIFOBytes32.peek at h
      rw [if_neg (fun hx => hx hSent), if_pos hq] at h
      exact Except.noConfusion h
    rw [gfReplyBody_sent nsl rd hSent hq] at h
    by_cases hfront : s.globalQueue.data s.globalQueue.head ≠ rid
    · rw [if_pos hfront] at h
      exact Except.noConfusion h
    · rw [if_neg hfront] at h
      injection h with h1
      exact ⟨hw', hSent, hq, not_not.mp hfront, h1.symm⟩

theorem gfInv_complete {s : GFState} (hI : GFInv s) {rid : B32}
    (hSent : (s.requests rid).state = RequestState.Sent)
    (hq : ¬ s.globalQueue.head = s.globalQueue.tail)
    (hfront : s.globalQueue.data s.globalQueue.head = rid) :
    GFInv { s with
      globalQueue := { s.globalQueue with head := s.globalQueue.head + 1 },
      requests := upd s.requests rid
        { s.requests rid with state := RequestState.Completed } } := by
  have hnonce : ∀ id, ((upd s.requests rid
      { s.requests rid with state := RequestState.Completed } : B32 → Request)
        id).nonce = (s.requests id).nonce := by
    intro id
    by_cases he : id = rid
    · rw [he, upd_same]
    · rw [upd_other _ _ he]
  have hlt : s.globalQueue.head < s.globalQueue.tail :=
    Nat.lt_of_le_of_ne hI.ht hq
  have hdup : ∀ i, s.globalQueue.head < i → i < s.globalQueue.tail →
      s.globalQueue.data i ≠ rid := by
    intro i h1 h2 hx
    have hm := hI.ent_mono s.globalQueue.head i (Nat.le_refl _) h1 h2
    rw [hx, hfront] at hm
    omega
  refine ⟨?_, ?_, ?_, ?_, ?_, ?_⟩
  · dsimp only
    omega
  · intro bn' snd' n' h
    dsimp only at h ⊢
    by_cases he : B32.hash bn' snd' n' = rid
    · rw [he, upd_same] at h ⊢
      have hold := hI.hash_nonce bn' snd' n'
        (by rw [he]; exact sent_ne_none hSent)
      rw [he] at hold
      exact hold
    · rw [upd_other _ _ he] at h ⊢
      exact hI.hash_nonce bn' snd' n' h
  · intro id h
    dsimp only at h ⊢
    by_cases he : id = rid
    · rw [he, upd_same] at h ⊢
      exact hI.nonce_le rid (sent_ne_none hSent)
    · rw [upd_other _ _ he] at h ⊢
      exact hI.nonce_le id h
  · intro i h1 h2
    dsimp only at h1 h2 ⊢
    have hi1 : s.globalQueue.head < i := by omega
    have hi2 : i < s.globalQueue.tail := h2
    rw [upd_other _ _ (hdup i hi1 hi2)]
    exact hI.ent_sent i (by omega) hi2
  · intro i j h1 h2 h3
    dsimp only at h1 h3 ⊢
    rw [hnonce, hnonce]
    exact hI.ent_mono i j (by omega) h2 h3
  · intro id h
    dsimp only at h ⊢
    have hid : id ≠ rid := by
      intro hx
      rw [hx, upd_same] at h
      exact RequestState.noConfusion h
    rw [upd_other _ _ hid] at h
    obtain ⟨i, h1, h2, h3⟩ := hI.sent_mem id h
    have hih : i ≠ s.globalQueue.head := by
      intro hx
      rw [hx, hfront] at h3
      exact hid h3.symm
    exact ⟨i, by omega, h2, h3⟩

theorem gfSend_ok_inv {s s' : GFState} {id : B32}
    {bn snd : Nat} {c bl csl : String}
    (h : s.sendOffchainCall bn snd c bl csl = Except.ok (s', id)) :
    s.whitelist snd = true ∧ s' = (s.sendBody bn snd c bl csl).1 ∧
      id = (s.sendBody bn snd c bl csl).2 := by
  unfold GFState.sendOffchainCall at h
  split at h
  · exact Except.noConfusion h
  · rename_i hw
    have hw' : s.whitelist snd = true := by
      cases hx : s.whitelist snd
      · exact absurd hx hw
      · rfl
    injection h with h1
    exact ⟨hw', (congrArg Prod.fst h1).symm, (congrArg Prod.snd h1).symm⟩

/-- Every reachable state of the Global FIFO coordinator satisfies the
invariant. -/
theorem gfReach_inv {s : GFState} (h : GFReach s) : GFInv s := by
  induction h with
  | init w => exact gfInv_init w
  | send bn snd c bl csl hr hok ih =>
    obtain ⟨hw, hs', hid⟩ := gfSend_ok_inv hok
    subst hs'
    exact gfInv_sendBody ih bn snd c bl csl
  | reply snd rid nsl rd hr hok ih =>
    obtain ⟨hw, hSent, hq, hfront, hs'⟩ := gfReply_ok_inv hok
    subst hs'
    exact gfInv_complete ih hSent hq hfront
  | setWhitelist w hr ih =>
    exact ⟨ih.ht, ih.hash_nonce, ih.nonce_le, ih.ent_sent, ih.ent_mono,
      ih.sent_mem⟩

/-- C3: In the Global FIFO coordinator variant, a request never transitions
to `Completed` while an earlier-admitted request is still `Sent`: a
`replyOffchainCall` succeeds exactly when the given request id is at the
front of the global queue (so the only legal completion order is admission
order), a successful completion has strictly smaller nonce than every other
still-`Sent` request, and an attempt on a pending id that is not at the
front reverts with the out-of-order error; the revert rolls the transaction
back, so every request (the attempted one included) keeps its `Sent`
state. -/
theorem globalFIFO_completion_order {s : GFState} (h : GFReach s)
    (sender : Nat) (rid : B32) (nsl rd : String)
    (hw : s.whitelist sender = true)
    (hSent : (s.requests rid).state = RequestState.Sent) :
    ((∃ s', s.replyOffchainCall sender rid nsl rd = Except.ok s') ↔
      FIFOBytes32.peek s.globalQueue = Except.ok rid) ∧
    (∀ s', s.replyOffchainCall sender rid nsl rd = Except.ok s' →
      ∀ id, (s.requests id).state = RequestState.Sent → id ≠ rid →
        (s.requests rid).nonce < (s.requests id).nonce) ∧
    (FIFOBytes32.peek s.globalQueue ≠ Except.ok rid →
      s.replyOffchainCall sender rid nsl rd =
        Except.error (SolError.outOfOrder rid) ∧
      ∀ id, ((applyTx (s.replyOffchainCall sender rid nsl rd) s).requests
        id).state = (s.requests id).state) := by
  have hI := gfReach_inv h
  obtain ⟨i0, hi01, hi02, hi03⟩ := hI.sent_mem rid hSent
  have hq : ¬ s.globalQueue.head = s.globalQueue.tail := by omega
  have hpeek : FIFOBytes32.peek s.globalQueue =
      Except.ok (s.globalQueue.data s.globalQueue.head) := by
    unfold FIFOBytes32.peek
    rw [if_neg hq]
  have hbody : s.replyOffchainCall sender rid nsl rd =
      s.replyBody rid nsl rd := by
    unfold GFState.replyOffchainCall
    rw [if_neg (by intro hx; rw [hw] at hx; exact Bool.noConfusion hx)]
  refine ⟨?_, ?_, ?_⟩
  · constructor
    · rintro ⟨s', heq⟩
      obtain ⟨_, _, _, hfront, _⟩ := gfReply_ok_inv heq
      rw [hpeek, hfront]
    · intro hp
      rw [hpeek] at hp
      injection hp with hfront
      rw [hbody, gfReplyBody_sent nsl rd hSent hq,
        if_neg (fun hx => hx hfront)]
      exact ⟨_, rfl⟩
  · intro s' heq id hid hne
    obtain ⟨_, _, _, hfront, _⟩ := gfReply_ok_inv heq
    obtain ⟨i, h1, h2, h3⟩ := hI.sent_mem id hid
    have hih : i ≠ s.globalQueue.head := by
      intro hx
      rw [hx, hfront] at h3
      exact hne h3.symm
    have hm := hI.ent_mono s.globalQueue.head i (Nat.le_refl _)
      (by omega) h2
    rw [hfront, h3] at hm
    exact hm
  · intro hp
    have hfront : s.globalQueue.data s.globalQueue.head ≠ rid := by
      intro hx
      rw [hpeek, hx] at hp
      exact hp rfl
    have herr : s.replyOffchainCall sender rid nsl rd =
        Except.error (SolError.outOfOrder rid) := by
      rw [hbody, gfReplyBody_sent nsl rd hSent hq, if_pos hfront]
    refine ⟨herr, ?_⟩
    intro id
    rw [herr, applyTx_error]

deriving instance DecidableEq for Except

/-- Witness for C3: in the concrete reachable two-request state `gEx2`,
replying to the second request reverts out-of-order while the first request
is at the front and can be completed. -/
theorem globalFIFO_completion_order_witness :
    gEx2.whitelist 1 = true ∧
    (gEx2.requests gId2).state = RequestState.Sent ∧
    gEx2.replyOffchainCall 1 gId2 "ns" "rd" =
      Except.error (SolError.outOfOrder gId2) ∧
    (∃ s', gEx2.replyOffchainCall 1 gId1 "ns" "rd" = Except.ok s') := by
  refine ⟨rfl, by decide, ?_, ?_⟩
  · have hmain := globalFIFO_completion_order gReach2 1 gId2 "ns" "rd" rfl
      (by decide)
    refine (hmain.2.2 ?_).1
    intro hx
    exact absurd hx (by decide)
  · have hmain := globalFIFO_completion_order gReach2 1 gId1 "ns" "rd" rfl
      (by decide)
    refine hmain.1.mpr ?_
    decide

theorem completedRecord_requester (r : Request) (nsl rd : String) :
    (completedRecord r nsl rd).requester = r.requester := rfl

theorem completedRecord_newStateLocation (r : Request) (nsl rd : String) :
    (completedRecord r nsl rd).newStateLocation = nsl := rfl

theorem completedRecord_returnData (r : Request) (nsl rd : String) :
    (completedRecord r nsl rd).returnData = rd := rfl

theorem rbacReply_ok_inv {s s' : RBACState}
    {handler : Nat → B32 → String → String → Except Unit Unit}
    {snd : Nat} {rid : B32} {nsl rd : String}
    (h : s.replyOffchainCall handler snd rid nsl rd = Except.ok s') :
    s.roles Role.processor snd = true ∧
    (s.requests rid).state = RequestState.Sent ∧
    ¬ s.globalQueue.head = s.globalQueue.tail ∧
    s.globalQueue.data s.globalQueue.head = rid ∧
    s' = { s with
      globalQueue := { s.globalQueue with head := s.globalQueue.head + 1 },
      requests := upd s.requests rid
        (completedRecord (s.requests rid) nsl rd) } := by
  unfold RBACState.replyOffchainCall at h
  split at h
  · exact Except.noConfusion h
  · rename_i hrole
    have hrole' : s.roles Role.processor snd = true := by
      cases hx : s.roles Role.processor snd
      · exact absurd hx hrole
      · rfl
    split at h
    · exact Except.noConfusion h
    · rename_i hstate
      unfold FIFOBytes32.peek at h
      by_cases hq : s.globalQueue.head = s.globalQueue.tail
      · rw [if_pos hq] at h
        exact Except.noConfusion h
      · rw [if_neg hq] at h
        dsimp only at h
        by_cases hfront : s.globalQueue.data s.globalQueue.head ≠ rid
        · rw [if_pos hfront] at h
          exact Except.noConfusion h
        · rw [if_neg hfront] at h
          unfold FIFOBytes32.dequeue at h
          rw [if_neg hq] at h
          dsimp only at h
          split at h
          · exact Except.noConfusion h
          · injection h with h1
            exact ⟨hrole', not_not.mp hstate, hq, not_not.mp hfront,
              h1.symm⟩

theorem partReply_ok_fields {s : PartState} {sender : Nat} {rid : B32}
    {nsl rd : String} {s' : PartState}
    (h : s.replyOffchainCall sender rid nsl rd = Except.ok s') :
    (s'.requests rid).state = RequestState.Completed ∧
    (s'.requests rid).newStateLocation = nsl ∧
    (s'.requests rid).returnData = rd := by
  obtain ⟨-, -, -, -, hs'⟩ := replyOffchainCall_ok_inv h
  subst hs'
  rw [completeUpdate_requests, markCompleted_requests, upd_same]
  exact ⟨completedRecord_state _ _ _, completedRecord_newStateLocation _ _ _,
    completedRecord_returnData _ _ _⟩

theorem rbacReply_ok_fields {s : RBACState}
    {handler : Nat → B32 → String → String → Except Unit Unit}
    {sender : Nat} {rid : B32} {nsl rd : String} {s' : RBACState}
    (h : s.replyOffchainCall handler sender rid nsl rd = Except.ok s') :
    (s'.requests rid).state = RequestState.Completed ∧
    (s'.requests rid).newStateLocation = nsl ∧
    (s'.requests rid).returnData = rd ∧
    s'.globalQueue.head = s.globalQueue.head + 1 ∧
    s'.globalQueue.tail = s.globalQueue.tail := by
  obtain ⟨-, -, -, -, hs'⟩ := rbacReply_ok_inv h
  subst hs'
  dsimp only
  rw [upd_same]
  exact ⟨completedRecord_state _ _ _, completedRecord_newStateLocation _ _ _,
    completedRecord_returnData _ _ _, rfl, rfl⟩

theorem gfReply_ok_fields {s : GFState} {sender : Nat} {rid : B32}
    {nsl rd : String} {s' : GFState}
    (h : s.replyOffchainCall sender rid nsl rd = Except.ok s') :
    (s'.requests rid).state = RequestState.Completed ∧
    (s'.requests rid).newStateLocation = (s.requests rid).newStateLocation ∧
    (s'.requests rid).returnData = (s.requests rid).returnData ∧
    s'.globalQueue.head = s.globalQueue.head + 1 ∧
    s'.globalQueue.tail = s.globalQueue.tail := by
  obtain ⟨-, -, -, -, hs'⟩ := gfReply_ok_inv h
  subst hs'
  dsimp only
  rw [upd_same]
  exact ⟨rfl, rfl, rfl, rfl, rfl⟩

/-- Counterexample to C4 as stated: in the Global FIFO variant a successful
`replyOffchainCall` marks the request `Completed` but does not store the
`newStateLocation` / `returnData` arguments (lines 527-539 only set
`state`); after completing `gId1` with arguments `"NS"`/`"RD"` both stored
fields are still empty. -/
theorem reply_stores_result_counterexample :
    isSuccess (gEx1.replyOffchainCall 1 gId1 "NS" "RD") = true ∧
    ((applyTx (gEx1.replyOffchainCall 1 gId1 "NS" "RD") gEx1).requests
      gId1).state = RequestState.Completed ∧
    ¬ ((applyTx (gEx1.replyOffchainCall 1 gId1 "NS" "RD") gEx1).requests
      gId1).returnData = "RD" ∧
    ¬ ((applyTx (gEx1.replyOffchainCall 1 gId1 "NS" "RD") gEx1).requests
      gId1).newStateLocation = "NS" := by
  decide

/-- C4 amended: for every successful `replyOffchainCall`, in the
Partitioned and RBAC variants the stored record afterwards has
`state = Completed`, `returnData` equal to the `returnData` argument and
`newStateLocation` equal to the `newStateLocation` argument, and the request
leaves the ordering structure (it is no longer `Sent`; in the RBAC variant
the queue head advances past it); in the Global FIFO variant the request is
marked `Completed` and dequeued but its `returnData` and
`newStateLocation` fields are left unchanged. -/
theorem reply_stores_result_amended :
    (∀ (s : PartState) (sender : Nat) (rid : B32) (nsl rd : String)
      (s' : PartState),
      s.replyOffchainCall sender rid nsl rd = Except.ok s' →
      (s'.requests rid).state = RequestState.Completed ∧
      (s'.requests rid).newStateLocation = nsl ∧
      (s'.requests rid).returnData = rd) ∧
    (∀ (s : RBACState)
      (handler : Nat → B32 → String → String → Except Unit Unit)
      (sender : Nat) (rid : B32) (nsl rd : String) (s' : RBACState),
      s.replyOffchainCall handler sender rid nsl rd = Except.ok s' →
      (s'.requests rid).state = RequestState.Completed ∧
      (s'.requests rid).newStateLocation = nsl ∧
      (s'.requests rid).returnData = rd ∧
      s'.globalQueue.head = s.globalQueue.head + 1 ∧
      s'.globalQueue.tail = s.globalQueue.tail) ∧
    (∀ (s : GFState) (sender : Nat) (rid : B32) (nsl rd : String)
      (s' : GFState),
      s.replyOffchainCall sender rid nsl rd = Except.ok s' →
      (s'.requests rid).state = RequestState.Completed ∧
      (s'.requests rid).newStateLocation =
        (s.requests rid).newStateLocation ∧
      (s'.requests rid).returnData = (s.requests rid).returnData ∧
      s'.globalQueue.head = s.globalQueue.head + 1 ∧
      s'.globalQueue.tail = s.globalQueue.tail) := by
  exact ⟨fun s sender rid nsl rd s' h => partReply_ok_fields h,
    fun s handler sender rid nsl rd s' h => rbacReply_ok_fields h,
    fun s sender rid nsl rd s' h => gfReply_ok_fields h⟩

/-- Witness for the amended C4: the concrete Partitioned and RBAC
completions store the reply payload, invoking the theorem at the concrete
reachable states. -/
theorem reply_stores_result_amended_witness :
    ((pEx1c.requests pId1).state = RequestState.Completed ∧
      (pEx1c.requests pId1).newStateLocation = "ns" ∧
      (pEx1c.requests pId1).returnData = "rd") ∧
    ((rEx1c.requests rId1).state = RequestState.Completed ∧
      (rEx1c.requests rId1).newStateLocation = "ns" ∧
      (rEx1c.requests rId1).returnData = "rd" ∧
      rEx1c.globalQueue.head = rEx1.globalQueue.head + 1 ∧
      rEx1c.globalQueue.tail = rEx1.globalQueue.tail) :=
  ⟨reply_stores_result_amended.1 pEx1 1 pId1 "ns" "rd" pEx1c pEx1c_reply,
   reply_stores_result_amended.2.1 rEx1 okHandler 2 rId1 "ns" "rd" rEx1c
     rEx1c_reply⟩

theorem partReply_invalid {s : PartState} {sender : Nat} {rid : B32}
    (nsl rd : String) (hw : s.whitelist sender = true)
    (hne : (s.requests rid).state ≠ RequestState.Sent) :
    s.replyOffchainCall sender rid nsl rd =
      Except.error SolError.invalidRequestState := by
  unfold PartState.replyOffchainCall PartState.replyBody
  rw [if_neg (by intro hx; rw [hw] at hx; exact Bool.noConfusion hx),
    if_pos hne]

theorem gfReply_invalid {s : GFState} {sender : Nat} {rid : B32}
    (nsl rd : String) (hw : s.whitelist sender = true)
    (hne : (s.requests rid).state ≠ RequestState.Sent) :
    s.replyOffchainCall sender rid nsl rd =
      Except.error SolError.invalidRequestState := by
  unfold GFState.replyOffchainCall GFState.replyBody
  rw [if_neg (by intro hx; rw [hw] at hx; exact Bool.noConfusion hx),
    if_pos hne]

theorem rbacReply_invalid {s : RBACState}
    (handler : Nat → B32 → String → String → Except Unit Unit)
    {sender : Nat} {rid : B32} (nsl rd : String)
    (hrole : s.roles Role.processor sender = true)
    (hne : (s.requests rid).state ≠ RequestState.Sent) :
    s.replyOffchainCall handler sender rid nsl rd =
      Except.error SolError.invalidRequestState := by
  unfold RBACState.replyOffchainCall
  rw [if_neg (by intro hx; rw [hrole] at hx; exact Bool.noConfusion hx),
    if_pos hne]

theorem not_sent_of_none_or_completed {r : RequestState}
    (h : r = RequestState.None ∨ r = RequestState.Completed) :
    r ≠ RequestState.Sent := by
  rcases h with h | h <;> rw [h] <;> intro hx <;>
    exact RequestState.noConfusion hx

/-- C5: In every coordinator variant, `replyOffchainCall` by an authorized
caller on a request id whose stored state is `None` or `Completed` reverts
with the invalid-request-state error; the revert rolls the transaction back
(`applyTx` returns the pre-state, so Request Store, queue, indices and nonce
counter are untouched), and the result does not depend on the consumer
handler, so the callback is never invoked.  Consequently at most one
completion ever succeeds per request id: after a successful completion the
request is `Completed`, so every further `replyOffchainCall` on the same id
reverts the same way. -/
theorem reply_invalid_request_state :
    (∀ (s : PartState) (sender : Nat) (rid : B32) (nsl rd : String),
      s.whitelist sender = true →
      ((s.requests rid).state = RequestState.None ∨
        (s.requests rid).state = RequestState.Completed) →
      s.replyOffchainCall sender rid nsl rd =
        Except.error SolError.invalidRequestState ∧
      applyTx (s.replyOffchainCall sender rid nsl rd) s = s) ∧
    (∀ (s : GFState) (sender : Nat) (rid : B32) (nsl rd : String),
      s.whitelist sender = true →
      ((s.requests rid).state = RequestState.None ∨
        (s.requests rid).state = RequestState.Completed) →
      s.replyOffchainCall sender rid nsl rd =
        Except.error SolError.invalidRequestState ∧
      applyTx (s.replyOffchainCall sender rid nsl rd) s = s) ∧
    (∀ (s : RBACState)
      (handler handler' : Nat → B32 → String → String → Except Unit Unit)
      (sender : Nat) (rid : B32) (nsl rd : String),
      s.roles Role.processor sender = true →
      ((s.requests rid).state = RequestState.None ∨
        (s.requests rid).state = RequestState.Completed) →
      s.replyOffchainCall handler sender rid nsl rd =
        Except.error SolError.invalidRequestState ∧
      applyTx (s.replyOffchainCall handler sender rid nsl rd) s = s ∧
      s.replyOffchainCall handler sender rid nsl rd =
        s.replyOffchainCall handler' sender rid nsl rd) ∧
    (∀ (s : PartState) (sender : Nat) (rid : B32) (nsl rd : String)
      (s' : PartState) (sender' : Nat) (nsl' rd' : String),
      s.replyOffchainCall sender rid nsl rd = Except.ok s' →
      s'.whitelist sender' = true →
      s'.replyOffchainCall sender' rid nsl' rd' =
        Except.error SolError.invalidRequestState) ∧
    (∀ (s : GFState) (sender : Nat) (rid : B32) (nsl rd : String)
      (s' : GFState) (sender' : Nat) (nsl' rd' : String),
      s.replyOffchainCall sender rid nsl rd = Except.ok s' →
      s'.whitelist sender' = true →
      s'.replyOffchainCall sender' rid nsl' rd' =
        Except.error SolError.invalidRequestState) ∧
    (∀ (s : RBACState)
      (handler handler' : Nat → B32 → String → String → Except Unit Unit)
      (sender : Nat) (rid : B32) (nsl rd : String) (s' : RBACState)
      (sender' : Nat) (nsl' rd' : String),
      s.replyOffchainCall handler sender rid nsl rd = Except.ok s' →
      s'.roles Role.processor sender' = true →
      s'.replyOffchainCall handler' sender' rid nsl' rd' =
        Except.error SolError.invalidRequestState) := by
  refine ⟨?_, ?_, ?_, ?_, ?_, ?_⟩
  · intro s sender rid nsl rd hw h
    have he := partReply_invalid nsl rd hw (not_sent_of_none_or_completed h)
    exact ⟨he, by rw [he, applyTx_error]⟩
  · intro s sender rid nsl rd hw h
    have he := gfReply_invalid nsl rd hw (not_sent_of_none_or_completed h)
    exact ⟨he, by rw [he, applyTx_error]⟩
  · intro s handler handler' sender rid nsl rd hrole h
    have he := rbacReply_invalid handler nsl rd hrole
      (not_sent_of_none_or_completed h)
    have he' := rbacReply_invalid handler' nsl rd hrole
      (not_sent_of_none_or_completed h)
    exact ⟨he, by rw [he, applyTx_error], by rw [he, he']⟩
  · intro s sender rid nsl rd s' sender' nsl' rd' h hw'
    have hc := (partReply_ok_fields h).1
    exact partReply_invalid nsl' rd' hw'
      (by rw [hc]; intro hx; exact RequestState.noConfusion hx)
  · intro s sender rid nsl rd s' sender' nsl' rd' h hw'
    have hc := (gfReply_ok_fields h).1
    exact gfReply_invalid nsl' rd' hw'
      (by rw [hc]; intro hx; exact RequestState.noConfusion hx)
  · intro s handler handler' sender rid nsl rd s' sender' nsl' rd' h hrole'
    have hc := (rbacReply_ok_fields h).1
    exact rbacReply_invalid handler' nsl' rd' hrole'
      (by rw [hc]; intro hx; exact RequestState.noConfusion hx)

/-- Witness for C5: replaying the completed request of `pEx1c` and replying
to a non-existent request both revert with the invalid-request-state
error. -/
theorem reply_invalid_request_state_witness :
    (pEx1c.requests pId1).state = RequestState.Completed ∧
    pEx1c.replyOffchainCall 1 pId1 "x" "y" =
      Except.error SolError.invalidRequestState ∧
    (pEx0.requests pId2).state = RequestState.None ∧
    pEx0.replyOffchainCall 1 pId2 "x" "y" =
      Except.error SolError.invalidRequestState := by
  refine ⟨by decide, ?_, by decide, ?_⟩
  · exact (reply_invalid_request_state.1 pEx1c 1 pId1 "x" "y" rfl
      (Or.inr (by decide))).1
  · exact (reply_invalid_request_state.1 pEx0 1 pId2 "x" "y" rfl
      (Or.inl (by decide))).1

/-- The post-transaction state of a send-style call returning a pair:
the new state on success, the pre-state when the call reverted. -/
def applySendTx {ε σ ι : Type} (r : Except ε (σ × ι)) (s : σ) : σ :=
  match r with
  | Except.ok (s', _) => s'
  | Except.error _ => s

@[simp] theorem applySendTx_error {ε σ ι : Type} (e : ε) (s : σ) :
    applySendTx (Except.error (α := σ × ι) e) s = s := rfl

/-- Counterexample to C6 as stated: in the concrete reachable RBAC state
`rEx1`, completing `rId1` with a consumer handler that throws makes the
whole `replyOffchainCall` revert; under EVM semantics the engine state is
rolled back with it, so the request is still `Sent` (not `Completed`) and
still at the front of the queue (not dequeued). -/
theorem handler_revert_counterexample :
    rEx1.replyOffchainCall throwHandler 2 rId1 "ns" "rd" =
      Except.error SolError.consumerReverted ∧
    ((applyTx (rEx1.replyOffchainCall throwHandler 2 rId1 "ns" "rd")
      rEx1).requests rId1).state = RequestState.Sent ∧
    ¬ ((applyTx (rEx1.replyOffchainCall throwHandler 2 rId1 "ns" "rd")
      rEx1).requests rId1).state = RequestState.Completed ∧
    FIFOBytes32.peek (applyTx
      (rEx1.replyOffchainCall throwHandler 2 rId1 "ns" "rd")
      rEx1).globalQueue = Except.ok rId1 := by
  refine ⟨rfl, by decide, by decide, by decide⟩

/-- C6 amended: if the requester's `onOffchainCallResponse` handler throws
during callback dispatch, the failure propagates to the caller of
`replyOffchainCall` as a revert, and because the engine does not catch it
the engine's own state changes are rolled back with the transaction: the
request remains `Sent` with empty result fields and stays at the front of
the ordering structure. -/
theorem handler_revert_rolls_back :
    ∀ (s : RBACState)
      (handler : Nat → B32 → String → String → Except Unit Unit)
      (sender : Nat) (rid : B32) (nsl rd : String),
      s.roles Role.processor sender = true →
      (s.requests rid).state = RequestState.Sent →
      FIFOBytes32.peek s.globalQueue = Except.ok rid →
      handler (s.requests rid).requester rid nsl rd = Except.error () →
      s.replyOffchainCall handler sender rid nsl rd =
        Except.error SolError.consumerReverted ∧
      applyTx (s.replyOffchainCall handler sender rid nsl rd) s = s ∧
      ((applyTx (s.replyOffchainCall handler sender rid nsl rd) s).requests
        rid).state = RequestState.Sent ∧
      FIFOBytes32.peek
        (applyTx (s.replyOffchainCall handler sender rid nsl rd)
          s).globalQueue = Except.ok rid := by
  intro s handler sender rid nsl rd hrole hSent hpeek hhandler
  have hq : ¬ s.globalQueue.head = s.globalQueue.tail := by
    intro hx
    unfold FIFOBytes32.peek at hpeek
    rw [if_pos hx] at hpeek
    exact Except.noConfusion hpeek
  have hfront : s.globalQueue.data s.globalQueue.head = rid := by
    unfold FIFOBytes32.peek at hpeek
    rw [if_neg hq] at hpeek
    exact Except.ok.inj hpeek
  have herr : s.replyOffchainCall handler sender rid nsl rd =
      Except.error SolError.consumerReverted := by
    unfold RBACState.replyOffchainCall
    rw [if_neg (by intro hx; rw [hrole] at hx; exact Bool.noConfusion hx),
      if_neg (fun hx => hx hSent)]
    unfold FIFOBytes32.peek
    rw [if_neg hq]
    dsimp only
    rw [if_neg (fun hx => hx hfront)]
    unfold FIFOBytes32.dequeue
    rw [if_neg hq]
    dsimp only
    rw [upd_same]
    dsimp only
    rw [hhandler]
  refine ⟨herr, by rw [herr, applyTx_error], ?_, ?_⟩
  · rw [herr, applyTx_error]
    exact hSent
  · rw [herr, applyTx_error]
    exact hpeek

/-- Witness for the amended C6: invoking the theorem at the concrete state
`rEx1` with the always-throwing handler. -/
theorem handler_revert_rolls_back_witness :
    rEx1.roles Role.processor 2 = true ∧
    (rEx1.requests rId1).state = RequestState.Sent ∧
    applyTx (rEx1.replyOffchainCall throwHandler 2 rId1 "ns" "rd") rEx1 =
      rEx1 := by
  refine ⟨rfl, by decide, ?_⟩
  exact (handler_revert_rolls_back rEx1 throwHandler 2 rId1 "ns" "rd" rfl
    (by decide) (by decide) rfl).2.1

/-- C7: In the RBAC coordinator variant, `sendOffchainCall` invoked by a
caller that holds `CONSUMER_ROLE` but does not advertise support for
`IResponseOffchainCallConsumer` (EIP-165) reverts with
`ConsumerDoesNotSupportInterface` before any state is created: the
post-transaction storage equals the pre-state, so no request record is
written (every id's state is unchanged, in particular `None` stays `None`),
nothing is enqueued and the nonce counter is not incremented. -/
theorem capability_check_blocks_admission :
    ∀ (s : RBACState) (supportsIface : Nat → Bool) (bn sender : Nat)
      (c bl csl : String),
      s.roles Role.consumer sender = true →
      supportsIface sender = false →
      s.sendOffchainCall supportsIface bn sender c bl csl =
        Except.error (SolError.consumerUnsupported sender) ∧
      applySendTx (s.sendOffchainCall supportsIface bn sender c bl csl) s =
        s ∧
      (∀ id, ((applySendTx
        (s.sendOffchainCall supportsIface bn sender c bl csl) s).requests
          id).state = (s.requests id).state) ∧
      (applySendTx (s.sendOffchainCall supportsIface bn sender c bl csl)
        s).nonce = s.nonce ∧
      (applySendTx (s.sendOffchainCall supportsIface bn sender c bl csl)
        s).globalQueue = s.globalQueue := by
  intro s supportsIface bn sender c bl csl hrole hsupp
  have herr : s.sendOffchainCall supportsIface bn sender c bl csl =
      Except.error (SolError.consumerUnsupported sender) := by
    unfold RBACState.sendOffchainCall
    rw [if_neg (by intro hx; rw [hrole] at hx; exact Bool.noConfusion hx),
      if_pos hsupp]
  refine ⟨herr, by rw [herr, applySendTx_error], ?_, ?_, ?_⟩
  · intro id
    rw [herr, applySendTx_error]
  · rw [herr, applySendTx_error]
  · rw [herr, applySendTx_error]

/-- Witness for C7: on the fresh RBAC deployment `rEx0` a consumer without
the interface capability cannot create any request. -/
theorem capability_check_blocks_admission_witness :
    rEx0.roles Role.consumer 1 = true ∧
    noSupports 1 = false ∧
    rEx0.sendOffchainCall noSupports 3 1 "c" "b" "st" =
      Except.error (SolError.consumerUnsupported 1) ∧
    ((applySendTx (rEx0.sendOffchainCall noSupports 3 1 "c" "b" "st")
      rEx0).requests rId1).state = RequestState.None := by
  have hmain := capability_check_blocks_admission rEx0 noSupports 3 1 "c"
    "b" "st" rfl rfl
  refine ⟨rfl, rfl, hmain.1, ?_⟩
  rw [hmain.2.2.1 rId1]
  decide

theorem fifo_isEmpty_iff (q : FIFOBytes32.Queue) :
    FIFOBytes32.isEmpty q = true ↔ q.head = q.tail := by
  simp [FIFOBytes32.isEmpty]

theorem fifo_dequeue_error_iff (q : FIFOBytes32.Queue) :
    FIFOBytes32.dequeue q = Except.error SolError.queueEmpty ↔
      q.head = q.tail := by
  unfold FIFOBytes32.dequeue
  by_cases h : q.head = q.tail
  · rw [if_pos h]
    exact ⟨fun _ => h, fun _ => rfl⟩
  · rw [if_neg h]
    exact ⟨fun hx => Except.noConfusion hx, fun hx => absurd hx h⟩

theorem fifo_peek_error_iff (q : FIFOBytes32.Queue) :
    FIFOBytes32.peek q = Except.error SolError.queueEmpty ↔
      q.head = q.tail := by
  unfold FIFOBytes32.peek
  by_cases h : q.head = q.tail
  · rw [if_pos h]
    exact ⟨fun _ => h, fun _ => rfl⟩
  · rw [if_neg h]
    exact ⟨fun hx => Except.noConfusion hx, fun hx => absurd hx h⟩

theorem qop_apply_ht (q : FIFOBytes32.Queue) (op : QOp)
    (h : q.head ≤ q.tail) :
    (QOp.apply q op).head ≤ (QOp.apply q op).tail := by
  cases op with
  | enqueue v =>
    simp only [QOp.apply]
    unfold FIFOBytes32.enqueue
    dsimp only
    omega
  | dequeue =>
    simp only [QOp.apply]
    unfold FIFOBytes32.dequeue
    by_cases hq : q.head = q.tail
    · rw [if_pos hq]
      exact h
    · rw [if_neg hq]
      dsimp only
      omega
  | resetIfEmpty =>
    simp only [QOp.apply]
    unfold FIFOBytes32.resetIfEmpty
    by_cases hq : q.head = q.tail
    · rw [if_pos hq]
    · rw [if_neg hq]
      exact h

theorem runQOps_ht : ∀ (ops : List QOp) (q : FIFOBytes32.Queue),
    q.head ≤ q.tail → (runQOps q ops).head ≤ (runQOps q ops).tail := by
  intro ops
  induction ops with
  | nil => intro q h; exact h
  | cons op ops ih => intro q h; exact ih (QOp.apply q op) (qop_apply_ht q op h)

/-- C8: For the `FIFOBytes32` ring-buffer queue, after every operation in
any interleaving of `enqueue`, `dequeue` and `resetIfEmpty` transactions
starting from the empty queue, `tail >= head` holds and
`length() == tail - head`, with `isEmpty()` true exactly when
`head == tail`; `dequeue` and `peek` revert with `QueueEmpty` exactly when
`head == tail`.  (The unchecked index increments are modelled as exact
arithmetic; `2^256` operations are unreachable.) -/
theorem fifo_queue_invariants (ops : List QOp) :
    (runQOps FIFOBytes32.empty ops).head ≤
      (runQOps FIFOBytes32.empty ops).tail ∧
    FIFOBytes32.length (runQOps FIFOBytes32.empty ops) =
      (runQOps FIFOBytes32.empty ops).tail -
        (runQOps FIFOBytes32.empty ops).head ∧
    (FIFOBytes32.isEmpty (runQOps FIFOBytes32.empty ops) = true ↔
      (runQOps FIFOBytes32.empty ops).head =
        (runQOps FIFOBytes32.empty ops).tail) ∧
    (FIFOBytes32.dequeue (runQOps FIFOBytes32.empty ops) =
        Except.error SolError.queueEmpty ↔
      (runQOps FIFOBytes32.empty ops).head =
        (runQOps FIFOBytes32.empty ops).tail) ∧
    (FIFOBytes32.peek (runQOps FIFOBytes32.empty ops) =
        Except.error SolError.queueEmpty ↔
      (runQOps FIFOBytes32.empty ops).head =
        (runQOps FIFOBytes32.empty ops).tail) :=
  ⟨runQOps_ht ops FIFOBytes32.empty (Nat.le_refl 0), rfl,
    fifo_isEmpty_iff _, fifo_dequeue_error_iff _, fifo_peek_error_iff _⟩

/-- Counterexample to C9 as stated: after enqueuing `qv1, qv2, qv3` on a
fresh queue, the sequence dequeue, peek, dequeue, dequeue returns
`qv1, qv2, qv2, qv3` and leaves the queue empty — but the indices are
`(3, 3)`, not `(0, 0)` (no reset happens automatically), and the next
enqueue stores at index 3, not 0. -/
theorem scenarioC_counterexample :
    deqValue qA = qv1 ∧
    FIFOBytes32.peek qB = Except.ok qv2 ∧
    deqValue qB = qv2 ∧
    deqValue qC = qv3 ∧
    FIFOBytes32.isEmpty qD = true ∧
    FIFOBytes32.indices qD = (3, 3) ∧
    ¬ FIFOBytes32.indices qD = (0, 0) ∧
    ¬ (FIFOBytes32.enqueue qD (B32.hash 0 0 4)).data 0 = B32.hash 0 0 4 ∧
    (FIFOBytes32.enqueue qD (B32.hash 0 0 4)).data 3 = B32.hash 0 0 4 := by
  decide

/-- C9 amended: starting from a fresh `FIFOBytes32` queue, after enqueuing
`qv1, qv2, qv3` the operation sequence dequeue, peek, dequeue, dequeue
returns `qv1, qv2, qv2, qv3` respectively and the queue is then empty with
indices `(3, 3)`; a subsequent explicit `resetIfEmpty` call resets the
indices to `(0, 0)`, after which the next enqueue stores at index 0. -/
theorem scenarioC_amended :
    deqValue qA = qv1 ∧
    FIFOBytes32.peek qB = Except.ok qv2 ∧
    deqValue qB = qv2 ∧
    deqValue qC = qv3 ∧
    FIFOBytes32.isEmpty qD = true ∧
    FIFOBytes32.indices qD = (3, 3) ∧
    FIFOBytes32.indices qE = (0, 0) ∧
    (FIFOBytes32.enqueue qE (B32.hash 0 0 4)).data 0 = B32.hash 0 0 4 ∧
    (FIFOBytes32.enqueue qE (B32.hash 0 0 4)).tail = 1 := by
  decide
